import Mathlib

/-!
Verification of a wave-function-collapse image generator.

The source program is embedded shallowly:

* a raster image is a list of pixel rows (`Img`), with the external image
  library's operations (`ImageOps.mirror`, `Image.rotate` by quarter turns,
  `getpixel`) modelled as pure functions on pixel matrices;
* a `Tile` is its identity triple (base-image reference, reflected flag,
  rotation count); its transformed image and edge signatures are derived
  from a base-image store `base : Nat → Img`, mirroring the fact that the
  source derives them deterministically from the tile's path;
* Python dicts are association lists with insert-keeps-position /
  append-when-new semantics (`dictGet`, `dictSet`, `dictPop`); Python sets
  of tiles are duplicate-free lists (every observation the program makes of
  such a set — membership, size, intersection, sorting — is order
  insensitive or explicitly sorted);
* the `defaultdict(set)` border index is an association list keyed by
  (side, signature); reading a missing key inserts an empty entry, exactly
  as `defaultdict.__getitem__` does;
* the generation loop is given both as state-threading functions (`place`,
  `seedPlace`) and as a big-step relation `GenRunF` for run-level claims.
-/

namespace WFC

/-! ## Pixel images and the symmetry transforms -/

abbrev Img := List (List Nat)

/-- Pixel lookup: `getpixel((c, r))` on a row-major matrix, row 0 at the top. -/
def getPx (img : Img) (r c : Nat) : Nat := (img.getD r []).getD c 0

def imgWidth (img : Img) : Nat := (img.headD []).length

def imgHeight (img : Img) : Nat := img.length

/-- Model of `ImageOps.mirror`: horizontal flip, each row reversed. -/
def mirror (img : Img) : Img := img.map List.reverse

/-- One counterclockwise quarter turn: the new pixel at row r, column c is the
old pixel at row c, column (width - 1 - r). -/
def rot90 (img : Img) : Img :=
  (List.range (imgWidth img)).map (fun r =>
    (List.range (imgHeight img)).map (fun c => getPx img c (imgWidth img - 1 - r)))

/-- Model of `image.rotate(rotation * 90)`: `k` successive counterclockwise quarter turns. -/
def rotN : Nat → Img → Img
  | 0, img => img
  | k + 1, img => rot90 (rotN k img)

/-- The transformed pixel content of a symmetry variant: reflection applied
before rotation, as in `Tile.__init__`. -/
def transform (img : Img) (reflected : Bool) (rotation : Nat) : Img :=
  rotN rotation (if reflected then mirror img else img)

/-! ## Tiles -/

/-- A tile's identity: `(path, reflected, rotation)` — equality, hashing and
ordering in the source are over exactly this triple. The base image the path
resolves to lives in an external store `base : Nat → Img`. -/
structure Tile where
  path : Nat
  reflected : Bool
  rotation : Nat
deriving DecidableEq, Repr

/-- The transformed image of a tile, derived from the base-image store. -/
def tileImage (base : Nat → Img) (t : Tile) : Img :=
  transform (base t.path) t.reflected t.rotation

/-- The edge signature of a tile on a side (0 top, 1 left, 2 bottom, 3 right),
read left-to-right for horizontal edges and top-to-bottom for vertical ones,
from the transformed image — as computed in `Tile.__init__`. -/
def borderAt (base : Nat → Img) (t : Tile) (side : Nat) : List Nat :=
  let img := tileImage base t
  let w := imgWidth img
  let h := imgHeight img
  match side with
  | 0 => (List.range w).map (fun c => getPx img 0 c)
  | 1 => (List.range h).map (fun r => getPx img r 0)
  | 2 => (List.range w).map (fun c => getPx img (h - 1) c)
  | _ => (List.range h).map (fun r => getPx img r (w - 1))

/-- Python's tuple comparison on `(path, reflected, rotation)`
(with `False < True`), as a boolean relation, used for `sorted`. -/
def tileLeB (a b : Tile) : Bool :=
  if a.path = b.path then
    if a.reflected = b.reflected then decide (a.rotation ≤ b.rotation)
    else decide (a.reflected = false)
  else decide (a.path < b.path)

def insertSorted (t : Tile) : List Tile → List Tile
  | [] => [t]
  | x :: xs => if tileLeB t x then t :: x :: xs else x :: insertSorted t xs

/-- Python `sorted` on a collection of tiles (insertion sort by the identity triple). -/
def sortTiles (l : List Tile) : List Tile := l.foldr insertSorted []

/-! ## Association lists: Python dict semantics -/

/-- Lookup `d[k]` as an option: the value at the first matching key. -/
def dictGet [DecidableEq κ] : List (κ × α) → κ → Option α
  | [], _ => none
  | p :: l, k => if p.1 = k then some p.2 else dictGet l k

/-- Assignment `d[k] = v`: replace in place if the key is present, else append. -/
def dictSet [DecidableEq κ] : List (κ × α) → κ → α → List (κ × α)
  | [], k, v => [(k, v)]
  | p :: l, k, v => if p.1 = k then (k, v) :: l else p :: dictSet l k v

/-- Removal `d.pop(k, None)`: drop the entry with the key, keep the rest. -/
def dictPop [DecidableEq κ] : List (κ × α) → κ → List (κ × α)
  | [], _ => []
  | p :: l, k => if p.1 = k then dictPop l k else p :: dictPop l k

/-! ## TileSet -/

abbrev Border := List Nat

/-- The tile catalog: tile → weight dict, the per-side border index
(`defaultdict(set)`, keyed here by the pair (side, signature)), and the
established tile dimensions. -/
structure TileSet where
  tiles : List (Tile × ℚ)
  borderMap : List ((Nat × Border) × List Tile)
  tileWidth : Option Nat
  tileHeight : Option Nat
deriving DecidableEq, Repr

def emptyTS : TileSet := ⟨[], [], none, none⟩

/-- The canonicalization loop of `add_tile`: reflection outer, rotation inner,
keeping a variant only when its transformed pixel content differs from every
previously kept variant's (`exists` accumulates the kept images). -/
def canonKeep (base : Nat → Img) (path : Nat) :
    List (Bool × Nat) → List Img → List Tile
  | [], _ => []
  | rr :: rest, seen =>
    let t : Tile := ⟨path, rr.1, rr.2⟩
    let img := tileImage base t
    if img ∈ seen then canonKeep base path rest seen
    else t :: canonKeep base path rest (seen ++ [img])

/-- The 8 symmetry transforms enumerated by `add_tile`:
reflection ∈ {False, True} crossed with rotation ∈ {0,1,2,3}. -/
def allTransforms : List (Bool × Nat) :=
  [(false, 0), (false, 1), (false, 2), (false, 3),
   (true, 0), (true, 1), (true, 2), (true, 3)]

/-- The surviving canonical variants of a base tile, in the sorted order in
which `add_tile` registers them. -/
def canonVariants (base : Nat → Img) (path : Nat) : List Tile :=
  sortTiles (canonKeep base path allTransforms [])

/-- Insertion `border_map[side][tile.borders[side]].add(tile)` (a `defaultdict(set)`). -/
def bmAdd (m : List ((Nat × Border) × List Tile)) (k : Nat × Border) (t : Tile) :
    List ((Nat × Border) × List Tile) :=
  match dictGet m k with
  | some s => dictSet m k (if t ∈ s then s else s ++ [t])
  | none => m ++ [(k, [t])]

/-- Register one canonical variant: its weight and its four border-index entries. -/
def registerTile (base : Nat → Img) (w : ℚ) (ts : TileSet) (t : Tile) : TileSet :=
  { ts with
    tiles := dictSet ts.tiles t w
    borderMap :=
      bmAdd (bmAdd (bmAdd (bmAdd ts.borderMap
        (0, borderAt base t 0) t)
        (1, borderAt base t 1) t)
        (2, borderAt base t 2) t)
        (3, borderAt base t 3) t }

/-- Model of `TileSet.add_tile`: dimension check (the source compares only the width of
the opened image against the established tile width), canonicalization, then
registration of every surviving variant with weight `weight / len(tiles)`. -/
def addTile (base : Nat → Img) (ts : TileSet) (path : Nat) (weight : ℚ) :
    Except String TileSet :=
  let image := base path
  let checked : Except String TileSet :=
    match ts.tileWidth with
    | none => .ok { ts with tileWidth := some (imgWidth image),
                            tileHeight := some (imgHeight image) }
    | some tw =>
      if imgWidth image ≠ tw then .error "Tiles are not of the same size"
      else .ok ts
  match checked with
  | .error e => .error e
  | .ok ts1 =>
    let vs := canonVariants base path
    .ok (vs.foldl (registerTile base (weight / (vs.length : ℚ))) ts1)

/-- Model of `TileSet.match_border`: a fresh set copied from `border_map[side][border]`.
Reading a missing key inserts an empty entry (`defaultdict` semantics), so the
possibly-grown map is returned alongside the copy. -/
def matchBorderD (ts : TileSet) (b : Border) (side : Nat) :
    List Tile × TileSet :=
  match dictGet ts.borderMap (side, b) with
  | some s => (s, ts)
  | none => ([], { ts with borderMap := ts.borderMap ++ [((side, b), [])] })

/-! ## Grid geometry -/

abbrev Coord := Int × Int

/-- The four neighbor offsets in source order: up, left, down, right. -/
def deltas : List (Int × Int) := [(-1, 0), (0, -1), (1, 0), (0, 1)]

def inBounds (w h : Nat) (c : Coord) : Prop :=
  0 ≤ c.1 ∧ c.1 < (h : Int) ∧ 0 ≤ c.2 ∧ c.2 < (w : Int)

instance (w h : Nat) (c : Coord) : Decidable (inBounds w h c) := by
  unfold inBounds; infer_instance

/-- Model of `neighbors(coord, width, height)`: each in-bounds neighbor, labelled with
the side of `coord` facing it. -/
def neighbors (coord : Coord) (w h : Nat) : List (Nat × Coord) :=
  deltas.enum.filterMap (fun p =>
    let n : Coord := (coord.1 + p.2.1, coord.2 + p.2.2)
    if inBounds w h n then some (p.1, n) else none)

/-! ## Placement state and propagation -/

/-- The run state of one `generate_image` call: the tile set (threaded because
`match_border` can grow its `defaultdict`), the placed mapping and the
frontier, both in dict insertion order. -/
structure St where
  ts : TileSet
  placed : List (Coord × Tile)
  frontier : List (Coord × List Tile)
deriving DecidableEq, Repr

/-- The neighbor-propagation loop of `place`: skip placed neighbors, narrow or
create the frontier entry from `match_border`, abort with the neighbor's
coordinate as soon as an entry becomes empty. -/
def propagate (base : Nat → Img) (w h : Nat) (tile : Tile) :
    List (Nat × Coord) → St → St × Option Coord
  | [], st => (st, none)
  | (side, fc) :: rest, st =>
    if (dictGet st.placed fc).isSome then propagate base w h tile rest st
    else
      let mb := matchBorderD st.ts (borderAt base tile side) ((side + 2) % 4)
      let newSet : List Tile :=
        match dictGet st.frontier fc with
        | some s => s.filter (fun t => decide (t ∈ mb.1))
        | none => mb.1
      let st1 : St := ⟨mb.2, st.placed, dictSet st.frontier fc newSet⟩
      if newSet.length = 0 then (st1, some fc)
      else propagate base w h tile rest st1

/-- Model of `place(coord, tile, placed, frontier)`: write the tile unconditionally,
drop the coordinate from the frontier, then propagate to the neighbors. -/
def place (base : Nat → Img) (w h : Nat) (coord : Coord) (tile : Tile)
    (st : St) : St × Option Coord :=
  propagate base w h tile (neighbors coord w h)
    ⟨st.ts, dictSet st.placed coord tile, dictPop st.frontier coord⟩

/-- The seeding loop of `generate_image`: place every caller-supplied seed
assignment in order; an exception aborts the run at once. -/
def seedPlace (base : Nat → Img) (w h : Nat) :
    List (Coord × Tile) → St → St × Option Coord
  | [], st => (st, none)
  | (c, t) :: rest, st =>
    match place base w h c t st with
    | (st1, none) => seedPlace base w h rest st1
    | (st1, some e) => (st1, some e)

/-! ## The generation loop -/

/-- Selection `min(frontier.items(), key = size)`: Python's `min` keeps the earliest
element among those of minimal candidate-set size. -/
def minBySize : List (Coord × List Tile) → Option (Coord × List Tile)
  | [] => none
  | p :: rest =>
    some (rest.foldl (fun best q => if q.2.length < best.2.length then q else best) p)

/-- The weights list `[tileset.get_weight(t) for t in possibilities]`;
`None` models the `KeyError` on a tile missing from the catalog. -/
def weightsOf (ts : TileSet) (l : List Tile) : Option (List ℚ) :=
  l.mapM (fun t => dictGet ts.tiles t)

/-- Running partial sums, as `random.choices` computes `cum_weights`. -/
def cumSums : List ℚ → ℚ → List ℚ
  | [], _ => []
  | x :: xs, acc => (acc + x) :: cumSums xs (acc + x)

/-- Model of `bisect.bisect_right` on a sorted list: the count of elements ≤ the probe. -/
def bisectRight (l : List ℚ) (v : ℚ) : Nat :=
  (l.takeWhile (fun a => decide (a ≤ v))).length

/-- Model of `random.choices(pop, weights)[0]` driven by one draw `x ∈ [0, 1)`:
index by `bisect_right(cum_weights, x * total)`, clamped to `len - 1`. -/
def choosesOne (pop : List Tile) (ws : List ℚ) (x : ℚ) : Option Tile :=
  let cum := cumSums ws 0
  let total := cum.getLastD 0
  pop.get? (min (bisectRight cum (x * total)) (pop.length - 1))

/-- The injected random generator: the stream of draws it will produce. -/
abbrev Rng := List ℚ

def rngHead (r : Rng) : ℚ := r.headD 0

def rngTail (r : Rng) : Rng := r.tail

/-- A completed run of the main `while len(placed) < width * height` loop,
from a state to its final state: each iteration selects the earliest
minimal-size frontier entry, sorts its candidates, samples one by weighted
choice from the injected generator, and places it; the run ends when the
placed count reaches `width * height`. -/
inductive GenRunF (base : Nat → Img) (w h : Nat) : St → Rng → St → Prop where
  | done : ∀ st rng, ¬ st.placed.length < w * h → GenRunF base w h st rng st
  | step : ∀ st rng c poss ws tile st1 stf,
      st.placed.length < w * h →
      minBySize st.frontier = some (c, poss) →
      weightsOf st.ts (sortTiles poss) = some ws →
      choosesOne (sortTiles poss) ws (rngHead rng) = some tile →
      place base w h c tile st = (st1, none) →
      GenRunF base w h st1 (rngTail rng) stf →
      GenRunF base w h st rng stf

/-! ## Derived notions used by the verification -/

/-- The offset associated with a side index (`deltas` spelled out). -/
def delta : Nat → Int × Int
  | 0 => (-1, 0)
  | 1 => (0, -1)
  | 2 => (1, 0)
  | _ => (0, 1)

/-- The neighbor of `c` across side `side`. -/
def coordPlus (c : Coord) (side : Nat) : Coord :=
  (c.1 + (delta side).1, c.2 + (delta side).2)

/-- The adjacency-compatibility relation the collapse engine enforces:
`t1`'s signature on `side` equals `t2`'s signature on the opposite side. -/
def BordersMatch (base : Nat → Img) (t1 : Tile) (side : Nat) (t2 : Tile) : Prop :=
  borderAt base t1 side = borderAt base t2 ((side + 2) % 4)

instance (base : Nat → Img) (t1 : Tile) (side : Nat) (t2 : Tile) :
    Decidable (BordersMatch base t1 side t2) := by
  unfold BordersMatch; infer_instance

/-- Every tile stored in the map under key `(side, b)` has signature `b` on
`side`. This is the invariant `add_tile` establishes and `match_border`
relies on. -/
def WFbm (base : Nat → Img) (m : List ((Nat × Border) × List Tile)) : Prop :=
  ∀ e ∈ m, ∀ t ∈ e.2, borderAt base t e.1.1 = e.1.2

def WFts (base : Nat → Img) (ts : TileSet) : Prop := WFbm base ts.borderMap

instance (base : Nat → Img) (m : List ((Nat × Border) × List Tile)) :
    Decidable (WFbm base m) := by
  unfold WFbm; infer_instance

instance (base : Nat → Img) (ts : TileSet) : Decidable (WFts base ts) := by
  unfold WFts; infer_instance

/-- One invocation of `place` (with any arguments) turning one run state into
the next; `place` is the only operation of the program that mutates `placed`
or `frontier`. -/
def PlaceStep (base : Nat → Img) (w h : Nat) (st st2 : St) : Prop :=
  ∃ c t e, place base w h c t st = (st2, e)

/-- Zero or more `place` invocations: every pair of states of one generation
run (seeding phase included) is related by `Reaches`. -/
def Reaches (base : Nat → Img) (w h : Nat) : St → St → Prop :=
  Relation.ReflTransGen (PlaceStep base w h)

/-- The caller-supplied seed assignments are mutually edge-compatible at every
adjacent pair. -/
def SeedCompat (base : Nat → Img) (seed : List (Coord × Tile)) : Prop :=
  ∀ p1 ∈ seed, ∀ p2 ∈ seed, ∀ side : Nat, side < 4 →
    p2.1 = coordPlus p1.1 side → BordersMatch base p1.2 side p2.2

instance (base : Nat → Img) (seed : List (Coord × Tile)) :
    Decidable (SeedCompat base seed) := by
  unfold SeedCompat
  have : ∀ p1 p2 : Coord × Tile, Decidable (∀ side : Nat, side < 4 →
      p2.1 = coordPlus p1.1 side → BordersMatch base p1.2 side p2.2) := by
    intro p1 p2
    apply decidable_of_iff (∀ side ∈ [0, 1, 2, 3],
      p2.1 = coordPlus p1.1 side → BordersMatch base p1.2 side p2.2)
    constructor
    · intro hq side hs4
      have : side ∈ [0, 1, 2, 3] := by
        interval_cases side <;> simp
      exact hq side this
    · intro hq side hs
      apply hq
      simp only [List.mem_cons, List.not_mem_nil, or_false] at hs
      rcases hs with rfl | rfl | rfl | rfl <;> norm_num
  infer_instance

/-- The run-state invariant of the collapse engine. `placedCompat` is the
adjacency-consistency property itself; the remaining fields are what makes it
inductive: frontier entries are in bounds, unplaced, have no duplicate keys,
and contain only tiles compatible with every placed neighbor, and an
in-bounds coordinate touching a placed one is never untouched. -/
structure Inv (base : Nat → Img) (w h : Nat) (st : St) : Prop where
  wf : WFts base st.ts
  fk : (st.frontier.map Prod.fst).Nodup
  placedCompat : ∀ c1 t1 c2 t2 (side : Nat), side < 4 →
    dictGet st.placed c1 = some t1 → dictGet st.placed c2 = some t2 →
    c2 = coordPlus c1 side → BordersMatch base t1 side t2
  frontierInB : ∀ c s, dictGet st.frontier c = some s → inBounds w h c
  frontierUnplaced : ∀ c s, dictGet st.frontier c = some s →
    dictGet st.placed c = none
  frontierCompat : ∀ c s, dictGet st.frontier c = some s → ∀ t ∈ s,
    ∀ c2 t2 (side : Nat), side < 4 → dictGet st.placed c2 = some t2 →
    c = coordPlus c2 side → BordersMatch base t2 side t
  untouched : ∀ c, inBounds w h c → dictGet st.placed c = none →
    dictGet st.frontier c = none → ∀ c2 t2 (side : Nat), side < 4 →
    dictGet st.placed c2 = some t2 → c ≠ coordPlus c2 side

/-- The intermediate invariant of the neighbor-propagation loop of one
`place(coord, tile)` call: like `Inv`, but the coordinate just placed has
been written already, and the compatibility of frontier entries (and the
no-untouched-neighbor property) with the *new* placement is allowed to be
outstanding exactly for the neighbors still pending. -/
structure PropInv (base : Nat → Img) (w h : Nat) (coord : Coord) (tile : Tile)
    (pending : List (Nat × Coord)) (st : St) : Prop where
  wf : WFts base st.ts
  fk : (st.frontier.map Prod.fst).Nodup
  placedSelf : dictGet st.placed coord = some tile
  placedCompat : ∀ c1 t1 c2 t2 (side : Nat), side < 4 →
    dictGet st.placed c1 = some t1 → dictGet st.placed c2 = some t2 →
    c2 = coordPlus c1 side → BordersMatch base t1 side t2
  frontierInB : ∀ c s, dictGet st.frontier c = some s → inBounds w h c
  frontierUnplaced : ∀ c s, dictGet st.frontier c = some s →
    dictGet st.placed c = none
  frontierCompat : ∀ c s, dictGet st.frontier c = some s → ∀ t ∈ s,
    ∀ c2 t2 (side : Nat), side < 4 → dictGet st.placed c2 = some t2 →
    c = coordPlus c2 side →
    BordersMatch base t2 side t ∨ (c2 = coord ∧ (side, c) ∈ pending)
  untouched : ∀ c, inBounds w h c → dictGet st.placed c = none →
    dictGet st.frontier c = none → ∀ c2 t2 (side : Nat), side < 4 →
    dictGet st.placed c2 = some t2 →
    c ≠ coordPlus c2 side ∨ (c2 = coord ∧ (side, c) ∈ pending)

/-- The selection rule exactly as the specification words it: among the
frontier entries of minimal candidate-set size, the one whose coordinate is
least in natural (row, then column) order. -/
def specSelect (l : List (Coord × List Tile)) : Option (Coord × List Tile) :=
  match l with
  | [] => none
  | p :: rest =>
    some (rest.foldl (fun best q =>
      if q.2.length < best.2.length then q
      else if q.2.length = best.2.length ∧
          (q.1.1 < best.1.1 ∨ (q.1.1 = best.1.1 ∧ q.1.2 < best.1.2)) then q
      else best) p)

/-! ## Concrete instances used for witnesses and counterexamples -/

/-- A base-image store with a single uniform 1-pixel tile image. -/
def baseA : Nat → Img := fun _ => [[1]]

/-- A base-image store with two different 1-pixel tile images. -/
def baseB : Nat → Img := fun n => if n = 0 then [[1]] else [[2]]

/-- A base-image store whose image 0 is a fully asymmetric 2-by-2 tile. -/
def baseC : Nat → Img := fun n => if n = 0 then [[1, 2], [3, 4]] else [[5]]

def tileA : Tile := ⟨0, false, 0⟩

def tileB : Tile := ⟨1, false, 0⟩

/-- The tile set produced by `add_tile(image 0, weight 1)` over `baseA`
(and equally over `baseB`): one canonical variant, indexed on all four sides. -/
def tsA : TileSet :=
  { tiles := [(tileA, 1)]
    borderMap := [((0, [1]), [tileA]), ((1, [1]), [tileA]),
                  ((2, [1]), [tileA]), ((3, [1]), [tileA])]
    tileWidth := some 1
    tileHeight := some 1 }

/-- A base-image store whose image 0 is 1 pixel wide and 1 high, while image 1
is 1 pixel wide but 2 high: same width, different height. -/
def base5 : Nat → Img := fun n => if n = 0 then [[0]] else [[0], [0]]

/-- The tile set after ingesting image 0 of `base5`. -/
def ts5a : TileSet := (addTile base5 emptyTS 0 1).toOption.getD emptyTS

/-- The tile set after then ingesting the height-mismatched image 1. -/
def ts5b : TileSet := (addTile base5 ts5a 1 1).toOption.getD emptyTS

/-- The tile set after ingesting the symmetric 1-pixel image 0 of `baseA`. -/
def ts7 : TileSet := (addTile baseA emptyTS 0 1).toOption.getD emptyTS

/-- The run state after seeding `(0,0)` with `tileA` on a 2-by-2 grid. -/
def stOk : St := (place baseA 2 2 ((0 : Int), (0 : Int)) tileA ⟨tsA, [], []⟩).1

/-- The run state after the aborted placement of the foreign `tileB` at
`(0,0)` on a 2-by-1 grid over `tsA`. -/
def stFail : St := (place baseB 2 1 ((0 : Int), (0 : Int)) tileB ⟨tsA, [], []⟩).1

/-- The state after one further loop placement (`tileA` at `(1,0)`) from
`stOk`. -/
def stOk2 : St := (place baseA 2 2 ((1 : Int), (0 : Int)) tileA stOk).1

/-- The state after seeding the single cell of a 1-by-1 grid. -/
def st11 : St :=
  (seedPlace baseA 1 1 [(((0 : Int), (0 : Int)), tileA)] ⟨tsA, [], []⟩).1

/-- The completed 2-by-1 run whose two cells are both seeded with `tileA`
(edge-compatible seeds). -/
def stW : St :=
  (seedPlace baseA 2 1 [(((0 : Int), (0 : Int)), tileA),
    (((0 : Int), (1 : Int)), tileA)] ⟨tsA, [], []⟩).1

/-- The completed 2-by-1 run seeded with the mismatched pair `tileA` at
`(0,0)` and the foreign `tileB` at `(0,1)`. -/
def stC1 : St :=
  (seedPlace baseB 2 1 [(((0 : Int), (0 : Int)), tileA),
    (((0 : Int), (1 : Int)), tileB)] ⟨tsA, [], []⟩).1

/-! ## Lemmas about the dict operations -/

theorem dictGet_dictSet_self [DecidableEq κ] (l : List (κ × α)) (k : κ) (v : α) :
    dictGet (dictSet l k v) k = some v := by
  induction l with
  | nil => simp [dictGet, dictSet]
  | cons p l ih =>
    by_cases h : p.1 = k
    · simp [dictGet, dictSet, h]
    · simp [dictGet, dictSet, h, ih]

theorem dictGet_dictSet_ne [DecidableEq κ] (l : List (κ × α)) (k k2 : κ) (v : α)
    (h : k2 ≠ k) : dictGet (dictSet l k v) k2 = dictGet l k2 := by
  have h2 : ¬ k = k2 := fun he => h he.symm
  induction l with
  | nil => simp [dictGet, dictSet, h2]
  | cons p l ih =>
    by_cases hp : p.1 = k
    · simp [dictGet, dictSet, hp, h2]
    · by_cases hp2 : p.1 = k2 <;> simp [dictGet, dictSet, hp, hp2, ih, h2, h]

theorem dictGet_dictPop_self [DecidableEq κ] (l : List (κ × α)) (k : κ) :
    dictGet (dictPop l k) k = none := by
  induction l with
  | nil => simp [dictGet, dictPop]
  | cons p l ih =>
    by_cases h : p.1 = k <;> simp [dictGet, dictPop, h, ih]

theorem dictGet_dictPop_ne [DecidableEq κ] (l : List (κ × α)) (k k2 : κ)
    (h : k2 ≠ k) : dictGet (dictPop l k) k2 = dictGet l k2 := by
  have h2 : ¬ k = k2 := fun he => h he.symm
  induction l with
  | nil => simp [dictGet, dictPop]
  | cons p l ih =>
    by_cases hp : p.1 = k
    · simp [dictGet, dictPop, hp, h2, ih]
    · by_cases hp2 : p.1 = k2 <;> simp [dictGet, dictPop, hp, hp2, ih, h2, h]

theorem mem_of_dictGet [DecidableEq κ] {l : List (κ × α)} {k : κ} {v : α}
    (h : dictGet l k = some v) : (k, v) ∈ l := by
  induction l with
  | nil => simp [dictGet] at h
  | cons p l ih =>
    by_cases hp : p.1 = k
    · simp only [dictGet, hp, if_pos] at h
      cases h
      have : p = (k, p.2) := by
        rw [← hp]
      rw [← this]
      exact List.mem_cons_self _ _
    · simp only [dictGet, hp, if_neg, if_false] at h
      exact List.mem_cons_of_mem _ (ih h)

theorem mem_dictSet_cases [DecidableEq κ] {l : List (κ × α)} {k : κ} {v : α}
    {p : κ × α} (h : p ∈ dictSet l k v) : p = (k, v) ∨ p ∈ l := by
  induction l with
  | nil => simp [dictSet] at h; left; exact h
  | cons q l ih =>
    by_cases hq : q.1 = k
    · simp only [dictSet, hq, if_pos] at h
      rcases List.mem_cons.1 h with h | h
      · left; exact h
      · right; exact List.mem_cons_of_mem _ h
    · simp only [dictSet, hq, if_false, if_neg] at h
      rcases List.mem_cons.1 h with h | h
      · right; rw [h]; exact List.mem_cons_self _ _
      · rcases ih h with h | h
        · left; exact h
        · right; exact List.mem_cons_of_mem _ h

theorem dictSet_keys_nodup [DecidableEq κ] (l : List (κ × α)) (k : κ) (v : α)
    (h : (l.map Prod.fst).Nodup) : ((dictSet l k v).map Prod.fst).Nodup := by
  induction l with
  | nil => simp [dictSet]
  | cons p l ih =>
    simp only [List.map_cons, List.nodup_cons] at h
    by_cases hp : p.1 = k
    · simp only [dictSet, hp, if_pos, List.map_cons, List.nodup_cons]
      refine ⟨?_, h.2⟩
      rw [← hp]
      exact h.1
    · simp only [dictSet, hp, if_neg, if_false, List.map_cons, List.nodup_cons]
      refine ⟨?_, ih h.2⟩
      intro hmem
      rcases List.mem_map.1 hmem with ⟨q, hq, hq1⟩
      rcases mem_dictSet_cases hq with rfl | hq
      · exact hp hq1.symm
      · exact h.1 (List.mem_map.2 ⟨q, hq, hq1⟩)

theorem dictPop_sublist [DecidableEq κ] (l : List (κ × α)) (k : κ) :
    (dictPop l k).Sublist l := by
  induction l with
  | nil => simp [dictPop]
  | cons p l ih =>
    by_cases hp : p.1 = k
    · simp only [dictPop, hp, if_pos]
      exact ih.cons _
    · simp only [dictPop, hp, if_neg, if_false]
      exact ih.cons₂ _

theorem dictPop_keys_nodup [DecidableEq κ] (l : List (κ × α)) (k : κ)
    (h : (l.map Prod.fst).Nodup) : ((dictPop l k).map Prod.fst).Nodup :=
  List.Nodup.sublist (List.Sublist.map Prod.fst (dictPop_sublist l k)) h

theorem dictGet_of_mem_nodup [DecidableEq κ] {l : List (κ × α)} {k : κ} {v : α}
    (hn : (l.map Prod.fst).Nodup) (h : (k, v) ∈ l) : dictGet l k = some v := by
  induction l with
  | nil => simp at h
  | cons p l ih =>
    simp only [List.map_cons, List.nodup_cons] at hn
    rcases List.mem_cons.1 h with rfl | h
    · simp [dictGet]
    · have hp : ¬ p.1 = k := by
        intro he
        exact hn.1 (List.mem_map.2 ⟨(k, v), h, he.symm⟩)
      simp [dictGet, hp, ih hn.2 h]

/-! ## Lemmas about `sortTiles` -/

theorem insertSorted_perm (t : Tile) (l : List Tile) :
    (insertSorted t l).Perm (t :: l) := by
  induction l with
  | nil => simp [insertSorted]
  | cons x xs ih =>
    by_cases h : tileLeB t x
    · simp [insertSorted, h]
    · simp only [insertSorted, h, if_false, if_neg]
      exact (ih.cons x).trans (List.Perm.swap t x xs)

theorem sortTiles_perm (l : List Tile) : (sortTiles l).Perm l := by
  induction l with
  | nil => simp [sortTiles]
  | cons x xs ih =>
    have : sortTiles (x :: xs) = insertSorted x (sortTiles xs) := rfl
    rw [this]
    exact (insertSorted_perm x (sortTiles xs)).trans (ih.cons x)

theorem mem_sortTiles_iff (t : Tile) (l : List Tile) :
    t ∈ sortTiles l ↔ t ∈ l :=
  (sortTiles_perm l).mem_iff

theorem sortTiles_length (l : List Tile) : (sortTiles l).length = l.length :=
  (sortTiles_perm l).length_eq

/-! ## Geometry lemmas -/

theorem deltas_enum_eq : deltas.enum =
    [(0, ((-1 : Int), (0 : Int))), (1, (0, -1)), (2, (1, 0)), (3, (0, 1))] := rfl

theorem mem_neighbors_iff (coord : Coord) (w h : Nat) (side : Nat) (fc : Coord) :
    (side, fc) ∈ neighbors coord w h ↔
      side < 4 ∧ inBounds w h fc ∧ fc = coordPlus coord side := by
  constructor
  · intro hm
    rcases List.mem_filterMap.1 hm with ⟨p, hp, hf⟩
    rw [deltas_enum_eq] at hp
    simp only [List.mem_cons, List.not_mem_nil, or_false] at hp
    rcases hp with rfl | rfl | rfl | rfl <;>
    · dsimp only at hf
      split at hf
      · rename_i hb
        simp only [Option.some.injEq, Prod.mk.injEq] at hf
        obtain ⟨hs, hc⟩ := hf
        subst hs
        exact ⟨by omega, hc ▸ hb, hc.symm⟩
      · exact absurd hf (by simp)
  · rintro ⟨hs4, hb, rfl⟩
    apply List.mem_filterMap.2
    interval_cases side
    · exact ⟨(0, ((-1 : Int), (0 : Int))), by rw [deltas_enum_eq]; simp,
        by dsimp only [coordPlus, delta] at hb ⊢; rw [if_pos hb]⟩
    · exact ⟨(1, ((0 : Int), (-1 : Int))), by rw [deltas_enum_eq]; simp,
        by dsimp only [coordPlus, delta] at hb ⊢; rw [if_pos hb]⟩
    · exact ⟨(2, ((1 : Int), (0 : Int))), by rw [deltas_enum_eq]; simp,
        by dsimp only [coordPlus, delta] at hb ⊢; rw [if_pos hb]⟩
    · exact ⟨(3, ((0 : Int), (1 : Int))), by rw [deltas_enum_eq]; simp,
        by dsimp only [coordPlus, delta] at hb ⊢; rw [if_pos hb]⟩

theorem coordPlus_inj (c : Coord) {s1 s2 : Nat} (h1 : s1 < 4) (h2 : s2 < 4)
    (he : coordPlus c s1 = coordPlus c s2) : s1 = s2 := by
  interval_cases s1 <;> interval_cases s2 <;>
    first
      | rfl
      | (exfalso; simp only [coordPlus, delta, Prod.ext_iff] at he; omega)

theorem coordPlus_ne_self (c : Coord) {side : Nat} (h : side < 4) :
    coordPlus c side ≠ c := by
  interval_cases side <;>
    (intro he; simp only [coordPlus, delta, Prod.ext_iff] at he; omega)

theorem opp_opp {side : Nat} (h : side < 4) : ((side + 2) % 4 + 2) % 4 = side := by
  interval_cases side <;> rfl

theorem opp_lt (side : Nat) : (side + 2) % 4 < 4 := by omega

theorem coordPlus_opp (c1 c2 : Coord) {side : Nat} (h : side < 4)
    (he : c2 = coordPlus c1 side) : c1 = coordPlus c2 ((side + 2) % 4) := by
  interval_cases side <;>
    (subst he; simp only [coordPlus, delta, Prod.ext_iff]; constructor <;> omega)

theorem bordersMatch_symm (base : Nat → Img) {t1 t2 : Tile} {side : Nat}
    (h : side < 4) (hm : BordersMatch base t1 side t2) :
    BordersMatch base t2 ((side + 2) % 4) t1 := by
  unfold BordersMatch at hm ⊢
  rw [opp_opp h]
  exact hm.symm

/-! ## Soundness of the border index -/

theorem wfts_empty (base : Nat → Img) : WFts base emptyTS := by
  intro e he
  simp [emptyTS] at he

theorem wfbm_dictGet {base : Nat → Img} {m : List ((Nat × Border) × List Tile)}
    {side : Nat} {b : Border} {s : List Tile} (hwf : WFbm base m)
    (h : dictGet m (side, b) = some s) :
    ∀ t ∈ s, borderAt base t side = b :=
  fun t ht => hwf _ (mem_of_dictGet h) t ht

theorem wfbm_bmAdd {base : Nat → Img} {m : List ((Nat × Border) × List Tile)}
    {side : Nat} {b : Border} {t : Tile} (hwf : WFbm base m)
    (ht : borderAt base t side = b) : WFbm base (bmAdd m (side, b) t) := by
  unfold bmAdd
  cases hg : dictGet m (side, b) with
  | none =>
    intro e he
    rcases List.mem_append.1 he with he | he
    · exact hwf e he
    · simp only [List.mem_singleton] at he
      subst he
      intro t2 ht2
      simp only [List.mem_singleton] at ht2
      subst ht2
      exact ht
  | some s =>
    intro e he
    rcases mem_dictSet_cases he with rfl | he
    · intro t2 ht2
      by_cases hts : t ∈ s
      · simp only [hts, if_pos] at ht2
        exact wfbm_dictGet hwf hg t2 ht2
      · simp only [hts, if_false, if_neg] at ht2
        rcases List.mem_append.1 ht2 with ht2 | ht2
        · exact wfbm_dictGet hwf hg t2 ht2
        · simp only [List.mem_singleton] at ht2
          subst ht2
          exact ht
    · exact hwf e he

theorem wfts_registerTile {base : Nat → Img} {ts : TileSet} {wq : ℚ} {t : Tile}
    (hwf : WFts base ts) : WFts base (registerTile base wq ts t) := by
  unfold WFts registerTile
  exact wfbm_bmAdd (wfbm_bmAdd (wfbm_bmAdd (wfbm_bmAdd hwf rfl) rfl) rfl) rfl

theorem wfts_regFold {base : Nat → Img} {wq : ℚ} (vs : List Tile) (ts : TileSet)
    (hwf : WFts base ts) : WFts base (vs.foldl (registerTile base wq) ts) := by
  induction vs generalizing ts with
  | nil => exact hwf
  | cons v vs ih => exact ih _ (wfts_registerTile hwf)

theorem wfts_addTile {base : Nat → Img} {ts ts2 : TileSet} {path : Nat} {wt : ℚ}
    (hwf : WFts base ts) (h : addTile base ts path wt = .ok ts2) : WFts base ts2 := by
  unfold addTile at h
  cases hw : ts.tileWidth with
  | none =>
    simp only [hw, Except.ok.injEq] at h
    subst h
    exact wfts_regFold _ _ hwf
  | some tw =>
    simp only [hw] at h
    by_cases hne : imgWidth (base path) ≠ tw
    · simp [hne] at h
    · simp only [hne, if_false, if_neg, Except.ok.injEq] at h
      subst h
      exact wfts_regFold _ _ hwf

/-! ## Lemmas about `match_border` -/

theorem matchBorder_sound {base : Nat → Img} {ts : TileSet} {b : Border}
    {side : Nat} {t : Tile} (hwf : WFts base ts)
    (h : t ∈ (matchBorderD ts b side).1) : borderAt base t side = b := by
  unfold matchBorderD at h
  cases hg : dictGet ts.borderMap (side, b) with
  | none => rw [hg] at h; simp at h
  | some s =>
    rw [hg] at h
    exact wfbm_dictGet hwf hg t h

theorem matchBorder_tiles (ts : TileSet) (b : Border) (side : Nat) :
    (matchBorderD ts b side).2.tiles = ts.tiles := by
  unfold matchBorderD
  cases dictGet ts.borderMap (side, b) <;> rfl

theorem matchBorder_wf {base : Nat → Img} {ts : TileSet} (b : Border) (side : Nat)
    (hwf : WFts base ts) : WFts base (matchBorderD ts b side).2 := by
  unfold matchBorderD
  cases dictGet ts.borderMap (side, b) with
  | none =>
    intro e he
    rcases List.mem_append.1 he with he | he
    · exact hwf e he
    · simp only [List.mem_singleton] at he
      subst he
      intro t2 ht2
      simp at ht2
  | some s => exact hwf

theorem matchBorder_append (ts : TileSet) (b : Border) (side : Nat) :
    ∃ ext, (matchBorderD ts b side).2.borderMap = ts.borderMap ++ ext ∧
      ∀ e ∈ ext, e.2 = ([] : List Tile) := by
  unfold matchBorderD
  cases dictGet ts.borderMap (side, b) with
  | none => exact ⟨[((side, b), [])], rfl, by simp⟩
  | some s => exact ⟨[], by simp, by simp⟩

theorem matchBorder_ne_nil_eq {ts : TileSet} {b : Border} {side : Nat}
    (h : (matchBorderD ts b side).1 ≠ []) : (matchBorderD ts b side).2 = ts := by
  unfold matchBorderD at h ⊢
  cases hg : dictGet ts.borderMap (side, b) with
  | none => rw [hg] at h; simp at h
  | some s => rfl

/-! ## Lemmas about `propagate` and `place` -/

theorem propagate_placed (base : Nat → Img) (w h : Nat) (tile : Tile)
    (pending : List (Nat × Coord)) (st : St) :
    ((propagate base w h tile pending st).1).placed = st.placed := by
  induction pending generalizing st with
  | nil => rfl
  | cons p rest ih =>
    obtain ⟨side, fc⟩ := p
    simp only [propagate]
    by_cases hp : (dictGet st.placed fc).isSome = true
    · rw [if_pos hp]
      exact ih st
    · rw [if_neg hp]
      split
      · rfl
      · exact ih _

theorem propagate_tiles (base : Nat → Img) (w h : Nat) (tile : Tile)
    (pending : List (Nat × Coord)) (st : St) :
    ((propagate base w h tile pending st).1).ts.tiles = st.ts.tiles := by
  induction pending generalizing st with
  | nil => rfl
  | cons p rest ih =>
    obtain ⟨side, fc⟩ := p
    simp only [propagate]
    by_cases hp : (dictGet st.placed fc).isSome = true
    · rw [if_pos hp]
      exact ih st
    · rw [if_neg hp]
      split
      · exact matchBorder_tiles st.ts _ _
      · rw [ih]
        exact matchBorder_tiles st.ts _ _

theorem propagate_bm_append (base : Nat → Img) (w h : Nat) (tile : Tile)
    (pending : List (Nat × Coord)) (st : St) :
    ∃ ext, ((propagate base w h tile pending st).1).ts.borderMap =
        st.ts.borderMap ++ ext ∧ ∀ e ∈ ext, e.2 = ([] : List Tile) := by
  induction pending generalizing st with
  | nil => exact ⟨[], by simp [propagate], by simp⟩
  | cons p rest ih =>
    obtain ⟨side, fc⟩ := p
    simp only [propagate]
    by_cases hp : (dictGet st.placed fc).isSome = true
    · rw [if_pos hp]
      exact ih st
    · rw [if_neg hp]
      obtain ⟨ext1, he1, hnil1⟩ :=
        matchBorder_append st.ts (borderAt base tile side) ((side + 2) % 4)
      split
    -- the propagation aborts here: only this call's defaultdict growth remains
      · exact ⟨ext1, he1, hnil1⟩
      · obtain ⟨ext2, he2, hnil2⟩ := ih _
        refine ⟨ext1 ++ ext2, ?_, ?_⟩
        · rw [he2]
          dsimp only
          rw [he1, List.append_assoc]
        · intro e he
          rcases List.mem_append.1 he with he | he
          · exact hnil1 e he
          · exact hnil2 e he

theorem propagate_success_ts (base : Nat → Img) (w h : Nat) (tile : Tile)
    (pending : List (Nat × Coord)) (st st1 : St)
    (hs : propagate base w h tile pending st = (st1, none)) : st1.ts = st.ts := by
  induction pending generalizing st with
  | nil =>
    simp only [propagate, Prod.mk.injEq] at hs
    rw [← hs.1]
  | cons p rest ih =>
    obtain ⟨side, fc⟩ := p
    simp only [propagate] at hs
    by_cases hp : (dictGet st.placed fc).isSome = true
    · rw [if_pos hp] at hs
      exact ih st hs
    · rw [if_neg hp] at hs
      split at hs
      · simp at hs
      · rename_i hlen
        have hmb : (matchBorderD st.ts (borderAt base tile side) ((side + 2) % 4)).1 ≠ [] := by
          intro hnil
          apply hlen
          cases hg : dictGet st.frontier fc with
          | some s => simp only [hg, hnil] at *; simp [hg, hnil]
          | none => simp [hg, hnil]
        have hts : (matchBorderD st.ts (borderAt base tile side) ((side + 2) % 4)).2 = st.ts :=
          matchBorder_ne_nil_eq hmb
        rw [ih _ hs, hts]

theorem propagate_wf {base : Nat → Img} (w h : Nat) (tile : Tile)
    (pending : List (Nat × Coord)) (st : St) (hwf : WFts base st.ts) :
    WFts base ((propagate base w h tile pending st).1).ts := by
  induction pending generalizing st with
  | nil => exact hwf
  | cons p rest ih =>
    obtain ⟨side, fc⟩ := p
    simp only [propagate]
    by_cases hp : (dictGet st.placed fc).isSome = true
    · rw [if_pos hp]
      exact ih st hwf
    · rw [if_neg hp]
      split
      · exact matchBorder_wf _ _ hwf
      · exact ih _ (matchBorder_wf _ _ hwf)

theorem propagate_frontier_keep (base : Nat → Img) (w h : Nat) (tile : Tile)
    (pending : List (Nat × Coord)) (st : St) (c : Coord) (s : List Tile)
    (hc : dictGet st.frontier c = some s) :
    ∃ s2, dictGet ((propagate base w h tile pending st).1).frontier c = some s2 ∧
      s2 ⊆ s ∧ s2.length ≤ s.length := by
  induction pending generalizing st s with
  | nil => exact ⟨s, hc, List.Subset.refl s, le_refl _⟩
  | cons p rest ih =>
    obtain ⟨side, fc⟩ := p
    simp only [propagate]
    by_cases hp : (dictGet st.placed fc).isSome = true
    · rw [if_pos hp]
      exact ih st s hc
    · rw [if_neg hp]
      set mb := matchBorderD st.ts (borderAt base tile side) ((side + 2) % 4) with hmb
      by_cases hcf : c = fc
      · subst hcf
        simp only [hc]
        set ns := s.filter (fun t => decide (t ∈ mb.1)) with hns
        split
        · exact ⟨ns, dictGet_dictSet_self _ _ _,
            (List.filter_sublist s).subset, (List.filter_sublist s).length_le⟩
        · obtain ⟨s2, h1, h2, h3⟩ :=
            ih ⟨mb.2, st.placed, dictSet st.frontier c ns⟩ ns
              (dictGet_dictSet_self st.frontier c ns)
          exact ⟨s2, h1, h2.trans (List.filter_sublist s).subset,
            h3.trans (List.filter_sublist s).length_le⟩
      · set ns := (match dictGet st.frontier fc with
          | some s => s.filter (fun t => decide (t ∈ mb.1))
          | none => mb.1) with hns
        split
        · exact ⟨s, (dictGet_dictSet_ne _ _ _ _ hcf).trans hc,
            List.Subset.refl s, le_refl _⟩
        · obtain ⟨s2, h1, h2, h3⟩ :=
            ih ⟨mb.2, st.placed, dictSet st.frontier fc ns⟩ s
              ((dictGet_dictSet_ne st.frontier fc c ns hcf).trans hc)
          exact ⟨s2, h1, h2, h3⟩

theorem propagate_disjoint (base : Nat → Img) (w h : Nat) (tile : Tile)
    (pending : List (Nat × Coord)) (st : St)
    (hd : ∀ c s, dictGet st.frontier c = some s → dictGet st.placed c = none) :
    ∀ c s, dictGet ((propagate base w h tile pending st).1).frontier c = some s →
      dictGet ((propagate base w h tile pending st).1).placed c = none := by
  induction pending generalizing st with
  | nil => exact hd
  | cons p rest ih =>
    obtain ⟨side, fc⟩ := p
    simp only [propagate]
    by_cases hp : (dictGet st.placed fc).isSome = true
    · rw [if_pos hp]
      exact ih st hd
    · rw [if_neg hp]
      have hfc : dictGet st.placed fc = none := by
        cases hg : dictGet st.placed fc with
        | none => rfl
        | some t => rw [hg] at hp; simp at hp
      split
      · intro c s hcs
        dsimp only at hcs ⊢
        by_cases hcf : c = fc
        · subst hcf
          exact hfc
        · exact hd c s (((dictGet_dictSet_ne st.frontier fc c _ hcf).symm.trans hcs))
      · apply ih
        intro c s hcs
        dsimp only at hcs ⊢
        by_cases hcf : c = fc
        · subst hcf
          exact hfc
        · exact hd c s (((dictGet_dictSet_ne st.frontier fc c _ hcf).symm.trans hcs))

theorem propagate_error (base : Nat → Img) (w h : Nat) (tile : Tile)
    (pending : List (Nat × Coord)) (st st1 : St) (fc : Coord)
    (he : propagate base w h tile pending st = (st1, some fc)) :
    dictGet st1.frontier fc = some [] ∧ ∃ side, (side, fc) ∈ pending := by
  induction pending generalizing st with
  | nil => simp [propagate] at he
  | cons p rest ih =>
    obtain ⟨side2, fc2⟩ := p
    simp only [propagate] at he
    by_cases hp : (dictGet st.placed fc2).isSome = true
    · rw [if_pos hp] at he
      obtain ⟨h1, side3, h3⟩ := ih st he
      exact ⟨h1, side3, List.mem_cons_of_mem _ h3⟩
    · rw [if_neg hp] at he
      split at he
      · rename_i hlen
        simp only [Prod.mk.injEq, Option.some.injEq] at he
        obtain ⟨hst, hfc⟩ := he
        subst hfc
        subst hst
        refine ⟨?_, side2, List.mem_cons_self _ _⟩
        have hnil := List.length_eq_zero.1 hlen
        rw [← hnil]
        exact dictGet_dictSet_self _ _ _
      · obtain ⟨h1, side3, h3⟩ := ih _ he
        exact ⟨h1, side3, List.mem_cons_of_mem _ h3⟩

theorem propagate_success_nonempty (base : Nat → Img) (w h : Nat) (tile : Tile)
    (pending : List (Nat × Coord)) (st st1 : St)
    (hs : propagate base w h tile pending st = (st1, none))
    (hne : ∀ c s, dictGet st.frontier c = some s → s ≠ []) :
    ∀ c s, dictGet st1.frontier c = some s → s ≠ [] := by
  induction pending generalizing st with
  | nil =>
    simp only [propagate, Prod.mk.injEq] at hs
    rw [← hs.1]
    exact hne
  | cons p rest ih =>
    obtain ⟨side2, fc2⟩ := p
    simp only [propagate] at hs
    by_cases hp : (dictGet st.placed fc2).isSome = true
    · rw [if_pos hp] at hs
      exact ih st hs hne
    · rw [if_neg hp] at hs
      split at hs
      · simp at hs
      · rename_i hlen
        apply ih _ hs
        intro c s hcs
        by_cases hcf : c = fc2
        · subst hcf
          rw [dictGet_dictSet_self] at hcs
          cases hcs
          intro hn
          exact hlen (by rw [hn]; rfl)
        · exact hne c s ((dictGet_dictSet_ne st.frontier fc2 c _ hcf).symm.trans hcs)

/-! ## Lemmas about `place` -/

theorem place_placed (base : Nat → Img) (w h : Nat) (coord : Coord) (tile : Tile)
    (st : St) :
    ((place base w h coord tile st).1).placed = dictSet st.placed coord tile := by
  unfold place
  rw [propagate_placed]

theorem place_tiles (base : Nat → Img) (w h : Nat) (coord : Coord) (tile : Tile)
    (st : St) : ((place base w h coord tile st).1).ts.tiles = st.ts.tiles := by
  unfold place
  rw [propagate_tiles]

theorem place_bm_append (base : Nat → Img) (w h : Nat) (coord : Coord)
    (tile : Tile) (st : St) :
    ∃ ext, ((place base w h coord tile st).1).ts.borderMap =
      st.ts.borderMap ++ ext ∧ ∀ e ∈ ext, e.2 = ([] : List Tile) := by
  unfold place
  exact propagate_bm_append base w h tile _ _

theorem place_wf {base : Nat → Img} (w h : Nat) (coord : Coord) (tile : Tile)
    (st : St) (hwf : WFts base st.ts) :
    WFts base ((place base w h coord tile st).1).ts := by
  unfold place
  exact propagate_wf w h tile _ _ hwf

theorem place_success_ts (base : Nat → Img) (w h : Nat) (coord : Coord)
    (tile : Tile) (st st1 : St)
    (hs : place base w h coord tile st = (st1, none)) : st1.ts = st.ts := by
  unfold place at hs
  exact propagate_success_ts base w h tile (neighbors coord w h)
    ⟨st.ts, dictSet st.placed coord tile, dictPop st.frontier coord⟩ st1 hs

theorem place_error (base : Nat → Img) (w h : Nat) (coord : Coord) (tile : Tile)
    (st st1 : St) (fc : Coord)
    (he : place base w h coord tile st = (st1, some fc)) :
    dictGet st1.frontier fc = some [] ∧
    st1.placed = dictSet st.placed coord tile ∧
    ∃ side, (side, fc) ∈ neighbors coord w h := by
  unfold place at he
  obtain ⟨h1, side, h3⟩ := propagate_error base w h tile _ _ st1 fc he
  refine ⟨h1, ?_, side, h3⟩
  have hfst : (propagate base w h tile (neighbors coord w h)
      ⟨st.ts, dictSet st.placed coord tile, dictPop st.frontier coord⟩).1 = st1 := by
    rw [he]
  rw [← hfst, propagate_placed]

/-- C9: `place` never validates the tile against the coordinate's frontier
candidate set. For every state — in particular whatever frontier entry `coord`
currently has, whether or not it contains `tile` — `place` records
`placed[coord] = tile` unconditionally. -/
theorem place_writes_unconditionally (base : Nat → Img) (w h : Nat)
    (coord : Coord) (tile : Tile) (st : St) :
    dictGet ((place base w h coord tile st).1).placed coord = some tile := by
  rw [place_placed]
  exact dictGet_dictSet_self _ _ _

/-- C2: if during the propagation loop of `place` a neighbor's candidate set
becomes empty, the run fails at once with an error naming that neighbor: the
failing coordinate is a grid neighbor of the placed coordinate, its frontier
entry in the abort state is the empty set, and `placed` in the abort state is
exactly the placed map plus the single write of `tile` at `coord` — no
rollback, and no mutation of `placed` after the failure point. Conversely a
successful `place` never leaves an empty candidate set behind, so the failure
fires exactly when narrowing empties a set. -/
theorem contradiction_abort (base : Nat → Img) (w h : Nat) (coord : Coord)
    (tile : Tile) (st st1 : St) :
    (∀ fc, place base w h coord tile st = (st1, some fc) →
      dictGet st1.frontier fc = some [] ∧
      st1.placed = dictSet st.placed coord tile ∧
      ∃ side, (side, fc) ∈ neighbors coord w h) ∧
    (place base w h coord tile st = (st1, none) →
      (∀ c s, dictGet st.frontier c = some s → s ≠ []) →
      ∀ c s, dictGet st1.frontier c = some s → s ≠ []) := by
  constructor
  · intro fc he
    exact place_error base w h coord tile st st1 fc he
  · intro hs hne
    unfold place at hs
    apply propagate_success_nonempty base w h tile _ _ st1 hs
    intro c s hcs
    by_cases hcc : c = coord
    · subst hcc
      rw [dictGet_dictPop_self] at hcs
      cases hcs
    · exact hne c s ((dictGet_dictPop_ne st.frontier coord c hcc).symm.trans hcs)

/-- Witness for `contradiction_abort`: over the one-tile catalog `tsA`,
placing the incompatible foreign tile `tileB` at `(0,0)` of a 2-by-1 grid
aborts naming neighbor `(0,1)` whose candidate set became empty, with
`placed` holding exactly the one write; and the successful placement of
`tileA` at `(0,0)` of a 2-by-2 grid leaves no empty candidate set. -/
theorem contradiction_abort_witness :
    (dictGet stFail.frontier ((0 : Int), (1 : Int)) = some [] ∧
     stFail.placed = dictSet ([] : List (Coord × Tile)) ((0 : Int), (0 : Int)) tileB ∧
     ∃ side, (side, ((0 : Int), (1 : Int))) ∈ neighbors ((0 : Int), (0 : Int)) 2 1) ∧
    [tileA] ≠ ([] : List Tile) := by
  constructor
  · exact (contradiction_abort baseB 2 1 ((0 : Int), (0 : Int)) tileB
      ⟨tsA, [], []⟩ stFail).1 ((0 : Int), (1 : Int)) (by decide)
  · exact (contradiction_abort baseA 2 2 ((0 : Int), (0 : Int)) tileA
      ⟨tsA, [], []⟩ stOk).2 (by decide)
      (by intro c s hcs; simp [dictGet] at hcs) ((1 : Int), (0 : Int)) [tileA]
      (by decide)

/-! ## Canonicalization lemmas -/

theorem canonKeep_cons (base : Nat → Img) (path : Nat) (p : Bool × Nat)
    (rest : List (Bool × Nat)) (seen : List Img) :
    canonKeep base path (p :: rest) seen =
      if tileImage base ⟨path, p.1, p.2⟩ ∈ seen then canonKeep base path rest seen
      else ⟨path, p.1, p.2⟩ ::
        canonKeep base path rest (seen ++ [tileImage base ⟨path, p.1, p.2⟩]) := rfl

theorem canonVariants_length_pos (base : Nat → Img) (path : Nat) :
    0 < (canonVariants base path).length := by
  unfold canonVariants
  rw [sortTiles_length]
  show 0 < (canonKeep base path ((false, 0) :: _) []).length
  rw [canonKeep_cons, if_neg (List.not_mem_nil _)]
  simp

theorem canonKeep_sublist (base : Nat → Img) (path : Nat)
    (l : List (Bool × Nat)) (seen : List Img) :
    (canonKeep base path l seen).Sublist
      (l.map (fun p => (⟨path, p.1, p.2⟩ : Tile))) := by
  induction l generalizing seen with
  | nil => simp [canonKeep]
  | cons p rest ih =>
    rw [canonKeep_cons]
    split
    · exact (ih seen).cons _
    · exact (ih _).cons₂ _

theorem canonKeep_all_in_seen (base : Nat → Img) (path : Nat)
    (l : List (Bool × Nat)) (seen : List Img)
    (hall : ∀ p ∈ l, tileImage base ⟨path, p.1, p.2⟩ ∈ seen) :
    canonKeep base path l seen = [] := by
  induction l with
  | nil => rfl
  | cons p rest ih =>
    rw [canonKeep_cons, if_pos (hall p (List.mem_cons_self _ _))]
    exact ih (fun q hq => hall q (List.mem_cons_of_mem _ hq))

theorem canonKeep_all_fresh (base : Nat → Img) (path : Nat)
    (l : List (Bool × Nat)) (seen : List Img)
    (hfresh : ∀ p ∈ l, tileImage base ⟨path, p.1, p.2⟩ ∉ seen)
    (hdist : ∀ p ∈ l, ∀ q ∈ l, p ≠ q →
      tileImage base ⟨path, p.1, p.2⟩ ≠ tileImage base ⟨path, q.1, q.2⟩)
    (hnodup : l.Nodup) :
    (canonKeep base path l seen).length = l.length := by
  induction l generalizing seen with
  | nil => rfl
  | cons p rest ih =>
    rw [canonKeep_cons, if_neg (hfresh p (List.mem_cons_self _ _))]
    simp only [List.length_cons, Nat.succ.injEq]
    have hnd := List.nodup_cons.1 hnodup
    apply ih
    · intro q hq
      intro hmem
      rcases List.mem_append.1 hmem with hmem | hmem
      · exact hfresh q (List.mem_cons_of_mem _ hq) hmem
      · simp only [List.mem_singleton] at hmem
        refine hdist q (List.mem_cons_of_mem _ hq) p (List.mem_cons_self _ _) ?_ hmem
        intro he
        rw [he] at hq
        exact hnd.1 hq
    · intro a ha b hb hne
      exact hdist a (List.mem_cons_of_mem _ ha) b (List.mem_cons_of_mem _ hb) hne
    · exact hnd.2

/-! ## C5 — the dimension check compares widths only -/

/-- C5 (code bug in the source): `add_tile` is claimed to fail whenever the
new tile's width *or height* differs from the established dimensions, but the
source compares only `image.width` against `tile_width` and never looks at
the height it stored. Ingesting a 1-by-1 image establishes width 1, height 1;
a subsequent 1-wide, 2-high image is accepted without error. -/
theorem height_mismatch_accepted :
    addTile base5 emptyTS 0 1 = .ok ts5a ∧
    ts5a.tileWidth = some 1 ∧ ts5a.tileHeight = some 1 ∧
    imgWidth (base5 1) = 1 ∧ imgHeight (base5 1) = 2 ∧
    addTile base5 ts5a 1 1 = .ok ts5b := by
  refine ⟨rfl, ?_, ?_, rfl, rfl, rfl⟩ <;> decide

/-! ## C7 — weight conservation -/

theorem regfold_get_not_mem (base : Nat → Img) (wq : ℚ) (vs : List Tile)
    (ts0 : TileSet) (t : Tile) (h : t ∉ vs) :
    dictGet (vs.foldl (registerTile base wq) ts0).tiles t = dictGet ts0.tiles t := by
  induction vs generalizing ts0 with
  | nil => rfl
  | cons v vs ih =>
    have hne : t ≠ v ∧ t ∉ vs := by
      rw [List.mem_cons, not_or] at h
      exact h
    rw [List.foldl_cons, ih _ hne.2]
    show dictGet (dictSet ts0.tiles v wq) t = _
    exact dictGet_dictSet_ne _ _ _ _ hne.1

theorem regfold_get_mem (base : Nat → Img) (wq : ℚ) (vs : List Tile)
    (ts0 : TileSet) (t : Tile) (h : t ∈ vs) :
    dictGet (vs.foldl (registerTile base wq) ts0).tiles t = some wq := by
  induction vs generalizing ts0 with
  | nil => cases h
  | cons v vs ih =>
    rw [List.foldl_cons]
    by_cases hm : t ∈ vs
    · exact ih _ hm
    · have hv : t = v := by
        rcases List.mem_cons.1 h with hv | hv
        · exact hv
        · exact absurd hv hm
      subst hv
      rw [regfold_get_not_mem base wq vs _ t hm]
      show dictGet (dictSet ts0.tiles t wq) t = some wq
      exact dictGet_dictSet_self _ _ _

theorem sum_map_const_rat (vs : List Tile) (q : ℚ) :
    (vs.map (fun _ => q)).sum = (vs.length : ℚ) * q := by
  induction vs with
  | nil => simp
  | cons v vs ih =>
    simp only [List.map_cons, List.sum_cons, ih, List.length_cons]
    push_cast
    ring

theorem addTile_ok_tiles {base : Nat → Img} {ts ts2 : TileSet} {path : Nat}
    {wt : ℚ} (h : addTile base ts path wt = .ok ts2) :
    ∀ t ∈ canonVariants base path,
      dictGet ts2.tiles t = some (wt / ((canonVariants base path).length : ℚ)) := by
  intro t ht
  unfold addTile at h
  cases hw : ts.tileWidth with
  | none =>
    simp only [hw, Except.ok.injEq] at h
    subst h
    exact regfold_get_mem _ _ _ _ _ ht
  | some tw =>
    simp only [hw] at h
    by_cases hne : imgWidth (base path) ≠ tw
    · simp [hne] at h
    · simp only [hne, if_false, if_neg, Except.ok.injEq] at h
      subst h
      exact regfold_get_mem _ _ _ _ _ ht

/-- C7: a base tile added with weight `wt` yields a nonempty list of surviving
canonical variants; each of them is registered with weight
`wt / (number of variants)`, and those per-variant weights sum back to `wt`
exactly (the weights are modelled as exact rationals, so the floating-point
tolerance of the claim is not needed). -/
theorem weight_conservation (base : Nat → Img) (ts ts2 : TileSet) (path : Nat)
    (wt : ℚ) (h : addTile base ts path wt = .ok ts2) :
    canonVariants base path ≠ [] ∧
    (∀ t ∈ canonVariants base path,
      dictGet ts2.tiles t = some (wt / ((canonVariants base path).length : ℚ))) ∧
    ((canonVariants base path).map
      (fun _ => wt / ((canonVariants base path).length : ℚ))).sum = wt := by
  have hpos := canonVariants_length_pos base path
  have hne0 : ((canonVariants base path).length : ℚ) ≠ 0 := by
    exact_mod_cast Nat.pos_iff_ne_zero.1 hpos
  refine ⟨?_, addTile_ok_tiles h, ?_⟩
  · intro hn
    rw [hn] at hpos
    simp at hpos
  · rw [sum_map_const_rat]
    field_simp

/-- Witness for `weight_conservation` at the symmetric 1-pixel tile of
`baseA` added with weight 1. -/
theorem weight_conservation_witness :
    canonVariants baseA 0 ≠ [] ∧
    (∀ t ∈ canonVariants baseA 0,
      dictGet ts7.tiles t = some (1 / ((canonVariants baseA 0).length : ℚ))) ∧
    ((canonVariants baseA 0).map
      (fun _ => (1 : ℚ) / ((canonVariants baseA 0).length : ℚ))).sum = 1 :=
  weight_conservation baseA emptyTS ts7 0 1 rfl

/-! ## C8 — symmetry collapse -/

/-- C8: canonicalization enumerates exactly the 8 reflection-before-rotation
transforms: every surviving variant is one of the 8, its image is the
rotation applied after the optional mirror; a tile image invariant under all
8 transforms keeps exactly 1 variant, and one with pairwise distinct
transforms keeps all 8. -/
theorem symmetry_collapse (base : Nat → Img) (path : Nat) :
    (∀ t ∈ canonVariants base path, t.path = path ∧
      (t.reflected, t.rotation) ∈ allTransforms ∧
      tileImage base t =
        rotN t.rotation (if t.reflected then mirror (base path) else base path)) ∧
    ((∀ p ∈ allTransforms, ∀ q ∈ allTransforms,
        tileImage base ⟨path, p.1, p.2⟩ = tileImage base ⟨path, q.1, q.2⟩) →
      (canonVariants base path).length = 1) ∧
    ((∀ p ∈ allTransforms, ∀ q ∈ allTransforms, p ≠ q →
        tileImage base ⟨path, p.1, p.2⟩ ≠ tileImage base ⟨path, q.1, q.2⟩) →
      (canonVariants base path).length = 8) := by
  refine ⟨?_, ?_, ?_⟩
  · intro t ht
    unfold canonVariants at ht
    rw [mem_sortTiles_iff] at ht
    have hsub := canonKeep_sublist base path allTransforms []
    have hmem := hsub.subset ht
    rcases List.mem_map.1 hmem with ⟨p, hp, he⟩
    subst he
    exact ⟨rfl, hp, rfl⟩
  · intro hall
    unfold canonVariants
    rw [sortTiles_length]
    show (canonKeep base path ((false, 0) :: _) []).length = 1
    rw [canonKeep_cons, if_neg (List.not_mem_nil _)]
    rw [canonKeep_all_in_seen]
    · rfl
    · intro q hq
      simp only [List.nil_append, List.mem_singleton]
      exact hall q (List.mem_cons_of_mem _ hq) (false, 0) (by decide)
  · intro hdist
    unfold canonVariants
    rw [sortTiles_length]
    rw [canonKeep_all_fresh base path allTransforms [] (by simp) hdist (by decide)]
    rfl

/-- Witness for `symmetry_collapse`: the 1-pixel image 0 of `baseA` is
invariant under all 8 transforms and keeps exactly 1 variant; the asymmetric
2-by-2 image 0 of `baseC` has 8 pairwise distinct transforms and keeps 8. -/
theorem symmetry_collapse_witness :
    (canonVariants baseA 0).length = 1 ∧ (canonVariants baseC 0).length = 8 :=
  ⟨(symmetry_collapse baseA 0).2.1 (by decide),
   (symmetry_collapse baseC 0).2.2 (by decide)⟩

/-! ## C6 — monotone narrowing across a run -/

theorem dictGet_some_key_mem [DecidableEq κ] {l : List (κ × α)} {k : κ} {v : α}
    (h : dictGet l k = some v) : k ∈ l.map Prod.fst := by
  have := mem_of_dictGet h
  exact List.mem_map.2 ⟨(k, v), this, rfl⟩

theorem placeStep_frontier (base : Nat → Img) (w h : Nat) {st st2 : St}
    (hs : PlaceStep base w h st st2) :
    (∀ c s, dictGet st.frontier c = some s →
      (∃ s2, dictGet st2.frontier c = some s2 ∧ s2 ⊆ s ∧ s2.length ≤ s.length) ∨
      (dictGet st2.placed c).isSome) ∧
    (∀ c, (dictGet st.placed c).isSome → (dictGet st2.placed c).isSome) := by
  obtain ⟨coord, tile, e, hp⟩ := hs
  have hfst : (place base w h coord tile st).1 = st2 := by rw [hp]
  constructor
  · intro c s hcs
    by_cases hcc : c = coord
    · subst hcc
      right
      rw [← hfst, place_placed, dictGet_dictSet_self]
      rfl
    · left
      have hpop : dictGet (dictPop st.frontier coord) c = some s :=
        (dictGet_dictPop_ne st.frontier coord c hcc).trans hcs
      obtain ⟨s2, h1, h2, h3⟩ := propagate_frontier_keep base w h tile
        (neighbors coord w h)
        ⟨st.ts, dictSet st.placed coord tile, dictPop st.frontier coord⟩ c s hpop
      unfold place at hfst
      rw [hfst] at h1
      exact ⟨s2, h1, h2, h3⟩
  · intro c hc
    rw [← hfst, place_placed]
    by_cases hcc : c = coord
    · subst hcc
      rw [dictGet_dictSet_self]
      rfl
    · rw [dictGet_dictSet_ne _ _ _ _ hcc]
      exact hc

theorem placeStep_disjoint (base : Nat → Img) (w h : Nat) {st st2 : St}
    (hs : PlaceStep base w h st st2)
    (hd : ∀ c s, dictGet st.frontier c = some s → dictGet st.placed c = none) :
    ∀ c s, dictGet st2.frontier c = some s → dictGet st2.placed c = none := by
  obtain ⟨coord, tile, e, hp⟩ := hs
  have hfst : (place base w h coord tile st).1 = st2 := by rw [hp]
  unfold place at hfst
  have hd2 : ∀ c s, dictGet (dictPop st.frontier coord) c = some s →
      dictGet (dictSet st.placed coord tile) c = none := by
    intro c s hcs2
    by_cases hcc : c = coord
    · subst hcc
      rw [dictGet_dictPop_self] at hcs2
      cases hcs2
    · rw [dictGet_dictSet_ne _ _ _ _ hcc]
      exact hd c s ((dictGet_dictPop_ne st.frontier coord c hcc).symm.trans hcs2)
  intro c s hcs
  rw [← hfst] at hcs ⊢
  exact propagate_disjoint base w h tile (neighbors coord w h)
    ⟨st.ts, dictSet st.placed coord tile, dictPop st.frontier coord⟩ hd2 c s hcs

/-- C6: across any portion of a run (`Reaches` is any sequence of `place`
calls, the program's only mutator of `placed` and `frontier`), a coordinate's
frontier candidate set either persists — shrunken: the later set is a subset
of the earlier one and its size never increases — or its coordinate has been
placed; placed entries persist; and when no frontier coordinate is placed
initially, frontier entries are removed exactly by the placement of their
coordinate: a coordinate holding an entry is never in `placed`. -/
theorem frontier_monotone (base : Nat → Img) (w h : Nat) {st st2 : St}
    (hr : Reaches base w h st st2) :
    (∀ c s, dictGet st.frontier c = some s →
      (∃ s2, dictGet st2.frontier c = some s2 ∧ s2 ⊆ s ∧ s2.length ≤ s.length) ∨
      (dictGet st2.placed c).isSome) ∧
    (∀ c, (dictGet st.placed c).isSome → (dictGet st2.placed c).isSome) ∧
    ((∀ c s, dictGet st.frontier c = some s → dictGet st.placed c = none) →
      ∀ c s, dictGet st2.frontier c = some s → dictGet st2.placed c = none) := by
  induction hr with
  | refl =>
    exact ⟨fun c s hcs => Or.inl ⟨s, hcs, List.Subset.refl s, le_refl _⟩,
      fun c hc => hc, fun hd => hd⟩
  | tail hab hbc ih =>
    obtain ⟨ih1, ih2, ih3⟩ := ih
    have hstep := placeStep_frontier base w h hbc
    refine ⟨?_, ?_, ?_⟩
    · intro c s hcs
      rcases ih1 c s hcs with ⟨s2, h1, h2, h3⟩ | hplaced
      · rcases hstep.1 c s2 h1 with ⟨s3, g1, g2, g3⟩ | hp2
        · exact Or.inl ⟨s3, g1, g2.trans h2, g3.trans h3⟩
        · exact Or.inr hp2
      · exact Or.inr (hstep.2 c hplaced)
    · intro c hc
      exact hstep.2 c (ih2 c hc)
    · intro hd
      exact placeStep_disjoint base w h hbc (ih3 hd)

/-- Witness for `frontier_monotone`: one loop placement from the seeded state
`stOk`. The frontier entry at `(0,1)` persists (shrunken or not), the seed
placement at `(0,0)` persists, and the coordinate `(1,1)`, which holds a
frontier entry afterwards, is still unplaced. -/
theorem frontier_monotone_witness :
    ((∃ s2, dictGet stOk2.frontier ((0 : Int), (1 : Int)) = some s2 ∧
        s2 ⊆ [tileA] ∧ s2.length ≤ 1) ∨
      (dictGet stOk2.placed ((0 : Int), (1 : Int))).isSome) ∧
    (dictGet stOk2.placed ((0 : Int), (0 : Int))).isSome ∧
    dictGet stOk2.placed ((1 : Int), (1 : Int)) = none := by
  have hr : Reaches baseA 2 2 stOk stOk2 :=
    Relation.ReflTransGen.single ⟨((1 : Int), (0 : Int)), tileA, none, by decide⟩
  have hm := frontier_monotone baseA 2 2 hr
  have hd : ∀ c s, dictGet stOk.frontier c = some s →
      dictGet stOk.placed c = none := by
    intro c s hcs
    have hk := dictGet_some_key_mem hcs
    have hkeys : stOk.frontier.map Prod.fst =
        [((1 : Int), (0 : Int)), ((0 : Int), (1 : Int))] := by decide
    rw [hkeys] at hk
    simp only [List.mem_cons, List.not_mem_nil, or_false] at hk
    rcases hk with rfl | rfl <;> decide
  exact ⟨hm.1 ((0 : Int), (1 : Int)) [tileA] (by decide),
    hm.2.1 ((0 : Int), (0 : Int)) (by decide),
    hm.2.2 hd ((1 : Int), (1 : Int)) [tileA] (by decide)⟩

/-! ## C3 — the selection rule of the generation loop -/

theorem foldl_min_split (rest : List (Coord × List Tile)) (p : Coord × List Tile) :
    ∃ l1 l2, p :: rest = l1 ++
        (rest.foldl (fun best q => if q.2.length < best.2.length then q else best) p) :: l2 ∧
      (∀ q ∈ l1,
        (rest.foldl (fun best q => if q.2.length < best.2.length then q else best) p).2.length
          < q.2.length) ∧
      (∀ q ∈ l2,
        (rest.foldl (fun best q => if q.2.length < best.2.length then q else best) p).2.length
          ≤ q.2.length) := by
  induction rest generalizing p with
  | nil => exact ⟨[], [], rfl, by simp, by simp⟩
  | cons q rest2 ih =>
    rw [List.foldl_cons]
    by_cases hq : q.2.length < p.2.length
    · rw [if_pos hq]
      obtain ⟨l1, l2, hsplit, hlt, hle⟩ := ih q
      have hres : (rest2.foldl (fun best q => if q.2.length < best.2.length then q else best) q).2.length
          ≤ q.2.length := by
        rcases l1 with _ | ⟨x, l1tail⟩
        · have : q = (rest2.foldl (fun best q => if q.2.length < best.2.length then q else best) q) := by
            have := hsplit
            simp only [List.nil_append] at this
            exact (List.cons.inj this).1
          rw [← this]
        · have hq1 : q = x := by
            have := hsplit
            simp only [List.cons_append] at this
            exact (List.cons.inj this).1
          subst hq1
          exact le_of_lt (hlt q (List.mem_cons_self _ _))
      refine ⟨p :: l1, l2, ?_, ?_, hle⟩
      · rw [List.cons_append, ← hsplit]
      · intro r hr
        rcases List.mem_cons.1 hr with rfl | hr
        · exact lt_of_le_of_lt hres hq
        · exact hlt r hr
    · rw [if_neg hq]
      obtain ⟨l1, l2, hsplit, hlt, hle⟩ := ih p
      rcases l1 with _ | ⟨x, l1tail⟩
      · simp only [List.nil_append] at hsplit
        have hp1 : p = (rest2.foldl (fun best q => if q.2.length < best.2.length then q else best) p) :=
          (List.cons.inj hsplit).1
        have hl2 : rest2 = l2 := (List.cons.inj hsplit).2
        refine ⟨[], q :: l2, ?_, by simp, ?_⟩
        · simp only [List.nil_append]
          rw [← hp1, ← hl2]
        · intro r hr
          rcases List.mem_cons.1 hr with rfl | hr
          · rw [← hp1]
            omega
          · exact hle r hr
      · simp only [List.cons_append] at hsplit
        have hp1 : p = x := (List.cons.inj hsplit).1
        have hrest : rest2 = l1tail ++ _ :: l2 := (List.cons.inj hsplit).2
        subst hp1
        refine ⟨p :: q :: l1tail, l2, ?_, ?_, hle⟩
        · simp only [List.cons_append]
          rw [← hrest]
        · intro r hr
          rcases List.mem_cons.1 hr with rfl | hr
          · exact hlt r (List.mem_cons_self _ _)
          · rcases List.mem_cons.1 hr with rfl | hr
            · have := hlt p (List.mem_cons_self _ _)
              omega
            · exact hlt r (List.mem_cons_of_mem _ hr)

/-- C3 as amended: the loop's selection
(`min(frontier.items(), key = candidate-set size)`, the selection rule of
every `GenRunF.step`) returns a frontier entry of minimal candidate-set size,
and among the entries of minimal size it returns the one that entered the
frontier dict *earliest* — every entry listed before it is strictly larger —
not the least coordinate in natural (row, column) order. -/
theorem selection_first_minimal (l : List (Coord × List Tile))
    (res : Coord × List Tile) (h : minBySize l = some res) :
    ∃ l1 l2, l = l1 ++ res :: l2 ∧
      (∀ q ∈ l1, res.2.length < q.2.length) ∧
      (∀ q ∈ l2, res.2.length ≤ q.2.length) := by
  cases l with
  | nil => simp [minBySize] at h
  | cons p rest =>
    simp only [minBySize, Option.some.injEq] at h
    subst h
    exact foldl_min_split rest p

/-- Witness for `selection_first_minimal` at the seeded state `stOk`: the
selected entry is `(1,0)`, the earliest of the two equally-sized entries. -/
theorem selection_first_minimal_witness :
    ∃ l1 l2, stOk.frontier = l1 ++ (((1 : Int), (0 : Int)), [tileA]) :: l2 ∧
      (∀ q ∈ l1, ([tileA] : List Tile).length < q.2.length) ∧
      (∀ q ∈ l2, ([tileA] : List Tile).length ≤ q.2.length) :=
  selection_first_minimal stOk.frontier (((1 : Int), (0 : Int)), [tileA]) (by decide)

/-- Counterexample to C3 as stated: at the reachable loop state `stOk`
(obtained by seeding `(0,0)` of a 2-by-2 grid), the two frontier entries
`(1,0)` and `(0,1)` tie at candidate-set size 1. The loop's selection takes
`(1,0)`, the entry created first (the down neighbor precedes the right
neighbor in `neighbors`), whereas the claimed natural (row, column) tie-break
— computed by `specSelect`, which implements the claim's words — picks
`(0,1)`. -/
theorem selection_tie_break_cx :
    minBySize stOk.frontier = some ((((1 : Int), (0 : Int))), [tileA]) ∧
    specSelect stOk.frontier = some ((((0 : Int), (1 : Int))), [tileA]) ∧
    dictGet stOk.frontier ((0 : Int), (1 : Int)) = some [tileA] ∧
    dictGet stOk.frontier ((1 : Int), (0 : Int)) = some [tileA] ∧
    ((((0 : Int), (1 : Int)) : Coord) ≠ (((1 : Int), (0 : Int)) : Coord)) := by
  refine ⟨?_, ?_, ?_, ?_, ?_⟩ <;> decide

/-! ## C10 — is the TileSet mutated by a run? -/

theorem seedPlace_success_ts (base : Nat → Img) (w h : Nat)
    (seed : List (Coord × Tile)) (st st1 : St)
    (hs : seedPlace base w h seed st = (st1, none)) : st1.ts = st.ts := by
  induction seed generalizing st with
  | nil =>
    simp only [seedPlace, Prod.mk.injEq] at hs
    rw [← hs.1]
  | cons p rest ih =>
    obtain ⟨c0, t0⟩ := p
    simp only [seedPlace] at hs
    cases hpl : place base w h c0 t0 st with
    | mk stm eo =>
      rw [hpl] at hs
      cases eo with
      | none => exact (ih stm hs).trans (place_success_ts base w h c0 t0 st stm hpl)
      | some e => simp at hs

theorem genRunF_ts (base : Nat → Img) (w h : Nat) {st : St} {rng : Rng}
    {stf : St} (hg : GenRunF base w h st rng stf) : stf.ts = st.ts := by
  induction hg with
  | done st rng hlt => rfl
  | step st rng c poss ws tile st1 stf hlt hmin hws hch hpl hrec ih =>
    rw [ih, place_success_ts base w h c tile st st1 hpl]

/-- C10 as amended: a run never changes the tile-to-weight mapping, and
`match_border`'s fresh-copy return shields every *existing* border-map entry
from the frontier's in-place intersections — the border map can grow only by
`defaultdict`-created empty entries for signatures looked up for the first
time. Such a lookup returns the empty set and aborts the run at once, so
every *successful* `place`, and hence every completed generation run, leaves
the TileSet exactly as it was. (A failed run, however, can leave a new empty
entry behind — see the counterexample.) -/
theorem tileset_preservation (base : Nat → Img) (w h : Nat) :
    (∀ coord tile st,
      ((place base w h coord tile st).1).ts.tiles = st.ts.tiles) ∧
    (∀ coord tile st, ∃ ext,
      ((place base w h coord tile st).1).ts.borderMap = st.ts.borderMap ++ ext ∧
      ∀ e ∈ ext, e.2 = ([] : List Tile)) ∧
    (∀ coord tile st st1, place base w h coord tile st = (st1, none) →
      st1.ts = st.ts) ∧
    (∀ seed ts st1 rng stf,
      seedPlace base w h seed ⟨ts, [], []⟩ = (st1, none) →
      GenRunF base w h st1 rng stf → stf.ts = ts) := by
  refine ⟨place_tiles base w h, place_bm_append base w h,
    place_success_ts base w h, ?_⟩
  intro seed ts st1 rng stf hs hg
  rw [genRunF_ts base w h hg, seedPlace_success_ts base w h seed _ st1 hs]

/-- Witness for `tileset_preservation`: the completed 1-by-1 run over `tsA`
leaves the TileSet untouched. -/
theorem tileset_preservation_witness : st11.ts = tsA :=
  (tileset_preservation baseA 1 1).2.2.2
    [(((0 : Int), (0 : Int)), tileA)] tsA st11 [] st11 (by decide)
    (GenRunF.done st11 [] (by decide))

/-- Counterexample to C10 as stated: the generation run over `tsA` seeded
with the foreign `tileB` at `(0,0)` of a 2-by-1 grid aborts with a
contradiction, and on the way `match_border`'s `defaultdict` lookup of the
unseen signature `[2]` on side 1 has *inserted an empty entry into the
TileSet's border map* — the border maps before and after the run differ, so
a generation run can mutate the TileSet. -/
theorem tileset_mutation_cx :
    (seedPlace baseB 2 1 [(((0 : Int), (0 : Int)), tileB)] ⟨tsA, [], []⟩).1
      = stFail ∧
    (seedPlace baseB 2 1 [(((0 : Int), (0 : Int)), tileB)] ⟨tsA, [], []⟩).2
      = some ((0 : Int), (1 : Int)) ∧
    stFail.ts.borderMap = tsA.borderMap ++ [((1, [2]), [])] ∧
    stFail.ts.borderMap ≠ tsA.borderMap := by
  refine ⟨?_, ?_, ?_, ?_⟩ <;> decide

/-! ## C4 — determinism -/

theorem genRunF_deterministic (base : Nat → Img) (w h : Nat) {st : St}
    {rng : Rng} {st1 st2 : St} (h1 : GenRunF base w h st rng st1) :
    GenRunF base w h st rng st2 → st1 = st2 := by
  induction h1 generalizing st2 with
  | done st rng hlt =>
    intro h2
    cases h2 with
    | done => rfl
    | step _ _ c2 poss2 ws2 tile2 stm2 stf2 hlt2 => exact absurd hlt2 hlt
  | step st rng c poss ws tile stm stf hlt hmin hws hch hpl hrec ih =>
    intro h2
    cases h2 with
    | done _ _ hlt2 => exact absurd hlt hlt2
    | step _ _ c2 poss2 ws2 tile2 stm2 stf2 hlt2 hmin2 hws2 hch2 hpl2 hrec2 =>
      rw [hmin] at hmin2
      obtain ⟨hc, hposs⟩ := Prod.mk.inj (Option.some.inj hmin2)
      subst hc
      subst hposs
      rw [hws] at hws2
      cases Option.some.inj hws2
      rw [hch] at hch2
      cases Option.some.inj hch2
      rw [hpl] at hpl2
      cases (Prod.mk.inj hpl2).1
      exact ih hrec2

/-- C4: two runs of generation over the same base images, tile set, grid
width and height, seed assignments, and injected random stream produce
identical `placed` mappings. The random stream is the only input of the loop
relation `GenRunF`, so any two completed derivations from the common seeded
state coincide. -/
theorem generation_deterministic (base : Nat → Img) (w h : Nat) (ts : TileSet)
    (seed : List (Coord × Tile)) (rng : Rng) (st0 st1f st2f : St)
    (_hs : seedPlace base w h seed ⟨ts, [], []⟩ = (st0, none))
    (h1 : GenRunF base w h st0 rng st1f) (h2 : GenRunF base w h st0 rng st2f) :
    st1f.placed = st2f.placed := by
  rw [genRunF_deterministic base w h h1 h2]

/-- Witness for `generation_deterministic`: the completed 1-by-1 run. -/
theorem generation_deterministic_witness :
    seedPlace baseA 1 1 [(((0 : Int), (0 : Int)), tileA)] ⟨tsA, [], []⟩
      = (st11, none) ∧
    st11.placed = st11.placed :=
  ⟨by decide,
   generation_deterministic baseA 1 1 tsA [(((0 : Int), (0 : Int)), tileA)] []
     st11 st11 st11 (by decide)
     (GenRunF.done st11 [] (by decide)) (GenRunF.done st11 [] (by decide))⟩

/-! ## C1 — adjacency consistency of completed runs -/

theorem dictGet_dictSet_cases [DecidableEq κ] {l : List (κ × α)} {k k2 : κ}
    {v u : α} (h : dictGet (dictSet l k v) k2 = some u) :
    (k2 = k ∧ u = v) ∨ (k2 ≠ k ∧ dictGet l k2 = some u) := by
  by_cases hk : k2 = k
  · subst hk
    rw [dictGet_dictSet_self] at h
    exact Or.inl ⟨rfl, (Option.some.inj h).symm⟩
  · rw [dictGet_dictSet_ne _ _ _ _ hk] at h
    exact Or.inr ⟨hk, h⟩

theorem not_isSome_none {o : Option α} (h : ¬ o.isSome = true) : o = none := by
  cases o with
  | none => rfl
  | some v => simp at h

theorem propagate_propinv (base : Nat → Img) (w h : Nat) (coord : Coord)
    (tile : Tile) (pending : List (Nat × Coord)) (st st1 : St)
    (hInv : PropInv base w h coord tile pending st)
    (hpend : ∀ q ∈ pending, q ∈ neighbors coord w h)
    (hs : propagate base w h tile pending st = (st1, none)) :
    PropInv base w h coord tile [] st1 := by
  induction pending generalizing st with
  | nil =>
    simp only [propagate, Prod.mk.injEq] at hs
    rw [← hs.1]
    exact hInv
  | cons q rest ih =>
    obtain ⟨side, fc⟩ := q
    have hqn := hpend (side, fc) (List.mem_cons_self _ _)
    obtain ⟨hside4, hfcB, hfceq⟩ := (mem_neighbors_iff coord w h side fc).1 hqn
    have hrest : ∀ q ∈ rest, q ∈ neighbors coord w h :=
      fun q hq => hpend q (List.mem_cons_of_mem _ hq)
    simp only [propagate] at hs
    by_cases hp : (dictGet st.placed fc).isSome = true
    · rw [if_pos hp] at hs
      refine ih st ?_ hrest hs
      refine { hInv with frontierCompat := ?_, untouched := ?_ }
      · intro c s hcs t ht c2 t2 side2 hs4 hp2 hadj
        rcases hInv.frontierCompat c s hcs t ht c2 t2 side2 hs4 hp2 hadj with
          hm | ⟨hc2, hmem⟩
        · exact Or.inl hm
        · right
          refine ⟨hc2, ?_⟩
          rcases List.mem_cons.1 hmem with he | he
          · exfalso
            have hcfc : c = fc := (Prod.mk.inj he).2
            subst hcfc
            rw [hInv.frontierUnplaced c s hcs] at hp
            simp at hp
          · exact he
      · intro c hcB hcp hcf c2 t2 side2 hs4 hp2
        rcases hInv.untouched c hcB hcp hcf c2 t2 side2 hs4 hp2 with
          hne | ⟨hc2, hmem⟩
        · exact Or.inl hne
        · right
          refine ⟨hc2, ?_⟩
          rcases List.mem_cons.1 hmem with he | he
          · exfalso
            have hcfc : c = fc := (Prod.mk.inj he).2
            subst hcfc
            rw [hcp] at hp
            simp at hp
          · exact he
    · have hpn : dictGet st.placed fc = none := not_isSome_none hp
      rw [if_neg hp] at hs
      cases hfg : dictGet st.frontier fc with
      | some s0 =>
        rw [hfg] at hs
        split at hs
        · simp at hs
        · rename_i hlen
          refine ih _ ?_ hrest hs
          refine { wf := ?_, fk := ?_, placedSelf := hInv.placedSelf,
                   placedCompat := hInv.placedCompat, frontierInB := ?_,
                   frontierUnplaced := ?_, frontierCompat := ?_, untouched := ?_ }
          · exact matchBorder_wf _ _ hInv.wf
          · exact dictSet_keys_nodup _ _ _ hInv.fk
          · intro c s hcs
            by_cases hcf : c = fc
            · subst hcf
              exact hfcB
            · rw [dictGet_dictSet_ne _ _ _ _ hcf] at hcs
              exact hInv.frontierInB c s hcs
          · intro c s hcs
            by_cases hcf : c = fc
            · subst hcf
              exact hpn
            · rw [dictGet_dictSet_ne _ _ _ _ hcf] at hcs
              exact hInv.frontierUnplaced c s hcs
          · intro c s hcs t ht c2 t2 side2 hs4 hp2 hadj
            by_cases hcf : c = fc
            · subst hcf
              rw [dictGet_dictSet_self] at hcs
              cases hcs
              have ht2 := List.mem_filter.1 ht
              have htv := of_decide_eq_true ht2.2
              by_cases hc2c : c2 = coord
              · rw [hc2c] at hp2 hadj
                left
                have ht2e : t2 = tile := by
                  have hps := hInv.placedSelf
                  rw [hp2] at hps
                  exact Option.some.inj hps
                subst ht2e
                have hseq : side2 = side :=
                  coordPlus_inj coord hs4 hside4 (hadj.symm.trans hfceq)
                subst hseq
                have hsound := matchBorder_sound hInv.wf htv
                exact hsound.symm
              · rcases hInv.frontierCompat c s0 hfg t ht2.1 c2 t2 side2 hs4
                  hp2 hadj with hm | ⟨hc2, _⟩
                · exact Or.inl hm
                · exact absurd hc2 hc2c
            · rw [dictGet_dictSet_ne _ _ _ _ hcf] at hcs
              rcases hInv.frontierCompat c s hcs t ht c2 t2 side2 hs4 hp2 hadj
                with hm | ⟨hc2, hmem⟩
              · exact Or.inl hm
              · right
                refine ⟨hc2, ?_⟩
                rcases List.mem_cons.1 hmem with he | he
                · exact absurd (Prod.mk.inj he).2 hcf
                · exact he
          · intro c hcB hcp hcf2 c2 t2 side2 hs4 hp2
            have hcnf : c ≠ fc := by
              intro he
              subst he
              rw [dictGet_dictSet_self] at hcf2
              cases hcf2
            rw [dictGet_dictSet_ne _ _ _ _ hcnf] at hcf2
            rcases hInv.untouched c hcB hcp hcf2 c2 t2 side2 hs4 hp2 with
              hne | ⟨hc2, hmem⟩
            · exact Or.inl hne
            · right
              refine ⟨hc2, ?_⟩
              rcases List.mem_cons.1 hmem with he | he
              · exact absurd (Prod.mk.inj he).2 hcnf
              · exact he
      | none =>
        rw [hfg] at hs
        split at hs
        · simp at hs
        · rename_i hlen
          refine ih _ ?_ hrest hs
          refine { wf := ?_, fk := ?_, placedSelf := hInv.placedSelf,
                   placedCompat := hInv.placedCompat, frontierInB := ?_,
                   frontierUnplaced := ?_, frontierCompat := ?_, untouched := ?_ }
          · exact matchBorder_wf _ _ hInv.wf
          · exact dictSet_keys_nodup _ _ _ hInv.fk
          · intro c s hcs
            by_cases hcf : c = fc
            · subst hcf
              exact hfcB
            · rw [dictGet_dictSet_ne _ _ _ _ hcf] at hcs
              exact hInv.frontierInB c s hcs
          · intro c s hcs
            by_cases hcf : c = fc
            · subst hcf
              exact hpn
            · rw [dictGet_dictSet_ne _ _ _ _ hcf] at hcs
              exact hInv.frontierUnplaced c s hcs
          · intro c s hcs t ht c2 t2 side2 hs4 hp2 hadj
            by_cases hcf : c = fc
            · subst hcf
              rw [dictGet_dictSet_self] at hcs
              cases hcs
              by_cases hc2c : c2 = coord
              · rw [hc2c] at hp2 hadj
                left
                have ht2e : t2 = tile := by
                  have hps := hInv.placedSelf
                  rw [hp2] at hps
                  exact Option.some.inj hps
                subst ht2e
                have hseq : side2 = side :=
                  coordPlus_inj coord hs4 hside4 (hadj.symm.trans hfceq)
                subst hseq
                have hsound := matchBorder_sound hInv.wf ht
                exact hsound.symm
              · exfalso
                rcases hInv.untouched c hfcB hpn hfg c2 t2 side2 hs4 hp2 with
                  hne | ⟨hc2, _⟩
                · exact hne hadj
                · exact hc2c hc2
            · rw [dictGet_dictSet_ne _ _ _ _ hcf] at hcs
              rcases hInv.frontierCompat c s hcs t ht c2 t2 side2 hs4 hp2 hadj
                with hm | ⟨hc2, hmem⟩
              · exact Or.inl hm
              · right
                refine ⟨hc2, ?_⟩
                rcases List.mem_cons.1 hmem with he | he
                · exact absurd (Prod.mk.inj he).2 hcf
                · exact he
          · intro c hcB hcp hcf2 c2 t2 side2 hs4 hp2
            have hcnf : c ≠ fc := by
              intro he
              subst he
              rw [dictGet_dictSet_self] at hcf2
              cases hcf2
            rw [dictGet_dictSet_ne _ _ _ _ hcnf] at hcf2
            rcases hInv.untouched c hcB hcp hcf2 c2 t2 side2 hs4 hp2 with
              hne | ⟨hc2, hmem⟩
            · exact Or.inl hne
            · right
              refine ⟨hc2, ?_⟩
              rcases List.mem_cons.1 hmem with he | he
              · exact absurd (Prod.mk.inj he).2 hcnf
              · exact he

theorem place_inv {base : Nat → Img} {w h : Nat} {coord : Coord} {tile : Tile}
    {st st1 : St} (hInv : Inv base w h st)
    (hcompat : ∀ c2 t2 (side : Nat), side < 4 → dictGet st.placed c2 = some t2 →
      coord = coordPlus c2 side → BordersMatch base t2 side tile)
    (hs : place base w h coord tile st = (st1, none)) : Inv base w h st1 := by
  unfold place at hs
  have hpre : PropInv base w h coord tile (neighbors coord w h)
      ⟨st.ts, dictSet st.placed coord tile, dictPop st.frontier coord⟩ := by
    refine { wf := hInv.wf, fk := dictPop_keys_nodup _ _ hInv.fk,
             placedSelf := dictGet_dictSet_self _ _ _,
             placedCompat := ?_, frontierInB := ?_, frontierUnplaced := ?_,
             frontierCompat := ?_, untouched := ?_ }
    · intro c1 t1 c2 t2 side hs4 hp1 hp2 hadj
      rcases dictGet_dictSet_cases hp1 with ⟨hc1, ht1⟩ | ⟨hc1, hp1o⟩ <;>
        rcases dictGet_dictSet_cases hp2 with ⟨hc2, ht2⟩ | ⟨hc2, hp2o⟩
      · exfalso
        rw [hc1, hc2] at hadj
        exact coordPlus_ne_self coord hs4 hadj.symm
      · subst ht1
        rw [hc1] at hadj
        have hopp := coordPlus_opp coord c2 hs4 hadj
        have hbm := hcompat c2 t2 ((side + 2) % 4) (opp_lt side) hp2o hopp
        have hsm := bordersMatch_symm base (opp_lt side) hbm
        rw [opp_opp hs4] at hsm
        exact hsm
      · subst ht2
        rw [hc2] at hadj
        exact hcompat c1 t1 side hs4 hp1o hadj
      · exact hInv.placedCompat c1 t1 c2 t2 side hs4 hp1o hp2o hadj
    · intro c s hcs
      by_cases hcc : c = coord
      · subst hcc
        rw [dictGet_dictPop_self] at hcs
        cases hcs
      · exact hInv.frontierInB c s
          ((dictGet_dictPop_ne _ _ _ hcc).symm.trans hcs)
    · intro c s hcs
      by_cases hcc : c = coord
      · subst hcc
        rw [dictGet_dictPop_self] at hcs
        cases hcs
      · rw [dictGet_dictSet_ne _ _ _ _ hcc]
        exact hInv.frontierUnplaced c s
          ((dictGet_dictPop_ne _ _ _ hcc).symm.trans hcs)
    · intro c s hcs t ht c2 t2 side hs4 hp2 hadj
      have hcc : c ≠ coord := by
        intro he
        subst he
        rw [dictGet_dictPop_self] at hcs
        cases hcs
      have hcso : dictGet st.frontier c = some s :=
        (dictGet_dictPop_ne _ _ _ hcc).symm.trans hcs
      rcases dictGet_dictSet_cases hp2 with ⟨hc2, ht2⟩ | ⟨hc2, hp2o⟩
      · right
        refine ⟨hc2, (mem_neighbors_iff coord w h side c).2
          ⟨hs4, hInv.frontierInB c s hcso, ?_⟩⟩
        rw [← hc2]
        exact hadj
      · left
        exact hInv.frontierCompat c s hcso t ht c2 t2 side hs4 hp2o hadj
    · intro c hcB hcp hcf c2 t2 side hs4 hp2
      have hcc : c ≠ coord := by
        intro he
        subst he
        rw [dictGet_dictSet_self] at hcp
        cases hcp
      rw [dictGet_dictSet_ne _ _ _ _ hcc] at hcp
      rw [dictGet_dictPop_ne _ _ _ hcc] at hcf
      rcases dictGet_dictSet_cases hp2 with ⟨hc2, ht2⟩ | ⟨hc2, hp2o⟩
      · by_cases hadj : c = coordPlus coord side
        · exact Or.inr ⟨hc2, (mem_neighbors_iff coord w h side c).2
            ⟨hs4, hcB, hadj⟩⟩
        · left
          rw [hc2]
          exact hadj
      · left
        exact hInv.untouched c hcB hcp hcf c2 t2 side hs4 hp2o
  have hpost := propagate_propinv base w h coord tile (neighbors coord w h)
    _ st1 hpre (fun q hq => hq) hs
  exact { wf := hpost.wf, fk := hpost.fk, placedCompat := hpost.placedCompat,
          frontierInB := hpost.frontierInB,
          frontierUnplaced := hpost.frontierUnplaced,
          frontierCompat := fun c s hcs t ht c2 t2 side hs4 hp2 hadj =>
            (hpost.frontierCompat c s hcs t ht c2 t2 side hs4 hp2 hadj).resolve_right
              (fun hex => absurd hex.2 (List.not_mem_nil _)),
          untouched := fun c hcB hcp hcf c2 t2 side hs4 hp2 =>
            (hpost.untouched c hcB hcp hcf c2 t2 side hs4 hp2).resolve_right
              (fun hex => absurd hex.2 (List.not_mem_nil _)) }

theorem inv_init {base : Nat → Img} {w h : Nat} {ts : TileSet}
    (hwf : WFts base ts) : Inv base w h ⟨ts, [], []⟩ := by
  refine { wf := hwf, fk := by simp, placedCompat := ?_, frontierInB := ?_,
           frontierUnplaced := ?_, frontierCompat := ?_, untouched := ?_ }
  · intro c1 t1 c2 t2 side hs4 hp1
    simp [dictGet] at hp1
  · intro c s hcs
    simp [dictGet] at hcs
  · intro c s hcs
    simp [dictGet] at hcs
  · intro c s hcs
    simp [dictGet] at hcs
  · intro c hcB hcp hcf c2 t2 side hs4 hp2
    simp [dictGet] at hp2

theorem seedPlace_inv_aux (base : Nat → Img) (w h : Nat)
    (seedFull : List (Coord × Tile)) (hnodup : (seedFull.map Prod.fst).Nodup)
    (hcompat : SeedCompat base seedFull) :
    ∀ (suffix : List (Coord × Tile)) (st st1 : St),
      (∀ p ∈ suffix, p ∈ seedFull) →
      Inv base w h st →
      (∀ c t, dictGet st.placed c = some t → dictGet seedFull c = some t) →
      seedPlace base w h suffix st = (st1, none) →
      Inv base w h st1 := by
  intro suffix
  induction suffix with
  | nil =>
    intro st st1 hsub hInv hplsub hs
    simp only [seedPlace, Prod.mk.injEq] at hs
    rw [← hs.1]
    exact hInv
  | cons p rest ih =>
    intro st st1 hsub hInv hplsub hs
    obtain ⟨c0, t0⟩ := p
    simp only [seedPlace] at hs
    cases hpl : place base w h c0 t0 st with
    | mk stm eo =>
      rw [hpl] at hs
      cases eo with
      | some e => simp at hs
      | none =>
        have hmem : (c0, t0) ∈ seedFull := hsub (c0, t0) (List.mem_cons_self _ _)
        have hc0get : dictGet seedFull c0 = some t0 :=
          dictGet_of_mem_nodup hnodup hmem
        have hcomp : ∀ c2 t2 (side : Nat), side < 4 →
            dictGet st.placed c2 = some t2 → c0 = coordPlus c2 side →
            BordersMatch base t2 side t0 := by
          intro c2 t2 side hs4 hp2 hadj
          have hmem2 : (c2, t2) ∈ seedFull := mem_of_dictGet (hplsub c2 t2 hp2)
          exact hcompat (c2, t2) hmem2 (c0, t0) hmem side hs4 hadj
        have hInv2 := place_inv hInv hcomp hpl
        have hpm : stm.placed = dictSet st.placed c0 t0 := by
          have hppl := place_placed base w h c0 t0 st
          rw [hpl] at hppl
          exact hppl
        have hplsub2 : ∀ c t, dictGet stm.placed c = some t →
            dictGet seedFull c = some t := by
          intro c t hct
          rw [hpm] at hct
          rcases dictGet_dictSet_cases hct with ⟨hc, ht⟩ | ⟨hc, hcto⟩
          · subst ht
            rw [hc]
            exact hc0get
          · exact hplsub c t hcto
        exact ih stm st1 (fun q hq => hsub q (List.mem_cons_of_mem _ hq))
          hInv2 hplsub2 hs

theorem foldl_min_mem (rest : List (Coord × List Tile)) (p : Coord × List Tile) :
    rest.foldl (fun best q => if q.2.length < best.2.length then q else best) p
      ∈ p :: rest := by
  induction rest generalizing p with
  | nil => exact List.mem_singleton.2 rfl
  | cons q rest ih =>
    rw [List.foldl_cons]
    by_cases hq : q.2.length < p.2.length
    · rw [if_pos hq]
      exact List.mem_cons_of_mem _ (ih q)
    · rw [if_neg hq]
      rcases List.mem_cons.1 (ih p) with he | he
      · rw [he]
        exact List.mem_cons_self _ _
      · exact List.mem_cons_of_mem _ (List.mem_cons_of_mem _ he)

theorem minBySize_mem {l : List (Coord × List Tile)} {res : Coord × List Tile}
    (h : minBySize l = some res) : res ∈ l := by
  cases l with
  | nil => simp [minBySize] at h
  | cons p rest =>
    simp only [minBySize, Option.some.injEq] at h
    rw [← h]
    exact foldl_min_mem rest p

theorem choosesOne_mem {pop : List Tile} {ws : List ℚ} {x : ℚ} {t : Tile}
    (h : choosesOne pop ws x = some t) : t ∈ pop := by
  unfold choosesOne at h
  exact List.get?_mem h

theorem genRunF_inv (base : Nat → Img) (w h : Nat) {st : St} {rng : Rng}
    {stf : St} (hg : GenRunF base w h st rng stf) :
    Inv base w h st → Inv base w h stf := by
  induction hg with
  | done st rng hlt => exact fun hInv => hInv
  | step st rng c poss ws tile stm stf hlt hmin hws hch hpl hrec ih =>
    intro hInv
    apply ih
    have hmem := minBySize_mem hmin
    have hget : dictGet st.frontier c = some poss :=
      dictGet_of_mem_nodup hInv.fk hmem
    have htile : tile ∈ poss := (mem_sortTiles_iff _ _).1 (choosesOne_mem hch)
    have hcomp : ∀ c2 t2 (side : Nat), side < 4 →
        dictGet st.placed c2 = some t2 → c = coordPlus c2 side →
        BordersMatch base t2 side tile :=
      fun c2 t2 side hs4 hp2 hadj =>
        hInv.frontierCompat c poss hget tile htile c2 t2 side hs4 hp2 hadj
    exact place_inv hInv hcomp hpl

/-- C1 as amended: for every generation run that completes — *provided the
caller-supplied seed assignments are mutually edge-compatible* (distinct
coordinates, and adjacent seed tiles matching across their shared edge) —
every pair of grid-adjacent placed tiles agrees on the shared edge
signatures. The proviso is forced by the counterexample
`adjacency_violation_cx`: `place` accepts seed tiles unconditionally, so two
adjacent mismatched seeds survive into a completed grid. -/
theorem adjacency_consistency (base : Nat → Img) (w h : Nat) (ts : TileSet)
    (seed : List (Coord × Tile)) (rng : Rng) (st0 stf : St)
    (hwf : WFts base ts) (hnodup : (seed.map Prod.fst).Nodup)
    (hcompat : SeedCompat base seed)
    (hs : seedPlace base w h seed ⟨ts, [], []⟩ = (st0, none))
    (hg : GenRunF base w h st0 rng stf) :
    ∀ c1 t1 c2 t2 (side : Nat), side < 4 →
      dictGet stf.placed c1 = some t1 → dictGet stf.placed c2 = some t2 →
      c2 = coordPlus c1 side → BordersMatch base t1 side t2 := by
  have h0 := seedPlace_inv_aux base w h seed hnodup hcompat seed
    ⟨ts, [], []⟩ st0 (fun p hp => hp) (inv_init hwf)
    (by intro c t hct; simp [dictGet] at hct) hs
  exact (genRunF_inv base w h hg h0).placedCompat

/-- Witness for `adjacency_consistency`: the completed 2-by-1 run `stW` whose
two cells are seeded with the same tile; the pair agrees across the shared
edge. -/
theorem adjacency_consistency_witness : BordersMatch baseA tileA 3 tileA :=
  adjacency_consistency baseA 2 1 tsA
    [(((0 : Int), (0 : Int)), tileA), (((0 : Int), (1 : Int)), tileA)] [] stW stW
    (by decide) (by decide) (by decide) (by decide)
    (GenRunF.done stW [] (by decide))
    ((0 : Int), (0 : Int)) tileA ((0 : Int), (1 : Int)) tileA 3 (by decide)
    (by decide) (by decide) (by decide)

/-- Counterexample to C1 as stated ("regardless of how the seed assignments
were chosen"): seeding `(0,0)` with `tileA` (right edge `[1]`) and `(0,1)`
with the foreign `tileB` (left edge `[2]`) on a 2-by-1 grid succeeds, the
grid is full, the run completes (`GenRunF.done`), yet the two adjacent
placed tiles disagree on their shared edge. -/
theorem adjacency_violation_cx :
    seedPlace baseB 2 1 [(((0 : Int), (0 : Int)), tileA),
        (((0 : Int), (1 : Int)), tileB)] ⟨tsA, [], []⟩ = (stC1, none) ∧
    GenRunF baseB 2 1 stC1 [] stC1 ∧
    stC1.placed.length = 2 * 1 ∧
    dictGet stC1.placed ((0 : Int), (0 : Int)) = some tileA ∧
    dictGet stC1.placed ((0 : Int), (1 : Int)) = some tileB ∧
    (((0 : Int), (1 : Int)) : Coord) = coordPlus ((0 : Int), (0 : Int)) 3 ∧
    ¬ BordersMatch baseB tileA 3 tileB :=
  ⟨by decide, GenRunF.done stC1 [] (by decide), by decide, by decide, by decide,
   by decide, by decide⟩

end WFC
